import Mathlib

/-!
SingleLinkedList (single-linked-list.h): a pointer-level embedding.

The free store and the list objects are explicit state.  A `Node*` is either
`nullptr`, the address of the sentinel `head_` embedded in a list object, or the
address of a node obtained from `new`.  Every member function of the header is
translated statement by statement over that state.
-/

namespace SLL

/-! ## Memory model -/

/-- A value of type `Node*`. -/
inductive NodePtr where
  /-- The null pointer. -/
  | null : NodePtr
  /-- The address `&head_` of the sentinel embedded in list object `l`. -/
  | head (l : Nat) : NodePtr
  /-- The address of a node of the free store. -/
  | node (a : Nat) : NodePtr
deriving DecidableEq, Repr

/-- The members of `struct Node`: `value` and `next`. -/
structure Node (α : Type) where
  value : α
  next : NodePtr
deriving DecidableEq, Repr

/-- The members of a `SingleLinkedList` object: the link `head_.next` of the embedded
sentinel (whose `value` member is never initialised nor read by the list) and the
cached `size_`, a `size_t`. -/
structure SingleLinkedList where
  head_next : NodePtr
  size_ : Nat
deriving DecidableEq, Repr

/-- The program state: the free store (cell `a` holds a live node or is free) and the
list objects, addressed by number. -/
structure World (α : Type) where
  heap : List (Option (Node α))
  objs : Nat → SingleLinkedList

/-- Result of running a function of the header. -/
inductive Res (ρ : Type) (α : Type) where
  /-- Normal return with value `r` in state `w`. -/
  | ok (r : ρ) (w : World α) : Res ρ α
  /-- A `std::bad_alloc` leaves the function; `w` is the state the caller sees. -/
  | bad_alloc (w : World α) : Res ρ α
  /-- Undefined behaviour: a failed `assert`, a null or dangling dereference. -/
  | ub : Res ρ α
  /-- The iteration bound of the model ran out. -/
  | fuel : Res ρ α

/-- Result of running a function that does not write to memory. -/
inductive Val (ρ : Type) where
  /-- Normal return. -/
  | ok (r : ρ) : Val ρ
  /-- Undefined behaviour: a failed `assert`, a null or dangling dereference. -/
  | ub : Val ρ
  /-- The iteration bound of the model ran out. -/
  | fuel : Val ρ
deriving DecidableEq, Repr

/-- `size_t` arithmetic is modulo `2^64`. -/
def SIZE_MOD : Nat := 18446744073709551616

/-- The first free cell of a free store, if any. -/
def firstFree {α : Type} : List (Option (Node α)) → Option Nat
  | [] => none
  | none :: _ => some 0
  | some _ :: h => (firstFree h).map (· + 1)

namespace World

variable {α : Type}

/-- A state with `cap` free cells and every list object default-constructed. -/
def empty (α : Type) (cap : Nat) : World α :=
  { heap := List.replicate cap none, objs := fun _ => ⟨.null, 0⟩ }

/-- The live node at address `a`, if there is one. -/
def cell (w : World α) (a : Nat) : Option (Node α) :=
  (w.heap[a]?).join

/-- Reads `p->next`; `none` when `p` is null or dangling. -/
def next (w : World α) : NodePtr → Option NodePtr
  | .null => none
  | .head l => some (w.objs l).head_next
  | .node a => (w.cell a).map (·.next)

/-- Reads `p->value`; `none` when `p` is null or dangling, or addresses a sentinel,
whose value is indeterminate. -/
def value (w : World α) : NodePtr → Option α
  | .null => none
  | .head _ => none
  | .node a => (w.cell a).map (·.value)

/-- Writes the members of list object `l`. -/
def setObj (w : World α) (l : Nat) (o : SingleLinkedList) : World α :=
  { w with objs := fun k => if k = l then o else w.objs k }

/-- Performs `p->next = q`; `none` when `p` is null or dangling. -/
def setNext (w : World α) (p q : NodePtr) : Option (World α) :=
  match p with
  | .null => none
  | .head l => some (w.setObj l { w.objs l with head_next := q })
  | .node a =>
    match w.cell a with
    | none => none
    | some n => some { w with heap := w.heap.set a (some { n with next := q }) }

/-- Performs `new Node(v, nx)`; `none` when the allocation throws `std::bad_alloc`,
which it does when no cell is free. -/
def newNode (w : World α) (v : α) (nx : NodePtr) : Option (NodePtr × World α) :=
  match firstFree w.heap with
  | none => none
  | some a => some (.node a, { w with heap := w.heap.set a (some ⟨v, nx⟩) })

/-- Performs `delete p`; `none` when `p` is neither null nor a live node of the free
store. -/
def deleteNode (w : World α) : NodePtr → Option (World α)
  | .null => some w
  | .head _ => none
  | .node a =>
    match w.cell a with
    | none => none
    | some _ => some { w with heap := w.heap.set a none }

/-- Performs `++size_` on list object `l`. -/
def incSize (w : World α) (l : Nat) : World α :=
  w.setObj l { w.objs l with size_ := ((w.objs l).size_ + 1) % SIZE_MOD }

/-- Performs `--size_` on list object `l`. -/
def decSize (w : World α) (l : Nat) : World α :=
  w.setObj l { w.objs l with size_ := ((w.objs l).size_ + (SIZE_MOD - 1)) % SIZE_MOD }

/-- The bound on the number of nodes any traversal of an acyclic chain visits. -/
def bound (w : World α) : Nat := w.heap.length + 1

end World

/-! ## BasicIterator -/

/-- The member of `BasicIterator<ValueType>`; `Iterator` and `ConstIterator` share it. -/
structure BasicIterator where
  node_ : NodePtr
deriving DecidableEq, Repr

namespace BasicIterator

variable {α : Type}

/-- Translation of `operator!=`: `!(node_ == rhs.node_)`. -/
def ne (lhs rhs : BasicIterator) : Bool := !(decide (lhs.node_ = rhs.node_))

/-- Translation of `operator++`: `assert(node_ != nullptr); node_ = node_->next`. -/
def incr (w : World α) (it : BasicIterator) : Option BasicIterator :=
  if it.node_ = .null then none
  else (w.next it.node_).map (fun p => ⟨p⟩)

/-- Translation of `operator*`: `assert(node_ != nullptr); return node_->value`. -/
def deref (w : World α) (it : BasicIterator) : Option α :=
  if it.node_ = .null then none
  else w.value it.node_

end BasicIterator

/-! ## Standard algorithms used by the header -/

section Algorithms

variable {α : Type}

/-- The three-iterator `std::equal(first1, last1, first2)`:
`for (; first1 != last1; ++first1, ++first2) if (!(*first1 == *first2)) return false;`
`return true;`. -/
def std_equal [BEq α] (w : World α) :
    Nat → BasicIterator → BasicIterator → BasicIterator → Val Bool
  | 0, _, _, _ => .fuel
  | n + 1, first1, last1, first2 =>
    if first1.ne last1 then
      match first1.deref w, first2.deref w with
      | some x, some y =>
        if !(x == y) then .ok false
        else
          match first1.incr w, first2.incr w with
          | some f1, some f2 => std_equal w n f1 last1 f2
          | _, _ => .ub
      | _, _ => .ub
    else .ok true

/-- The algorithm `std::lexicographical_compare(first1, last1, first2, last2)`:
`for (; first1 != last1 && first2 != last2; ++first1, ++first2) {`
`if (*first1 < *first2) return true; if (*first2 < *first1) return false; }`
`return first1 == last1 && first2 != last2;`. -/
def std_lexicographical_compare [LT α] [DecidableRel (fun (x y : α) => x < y)]
    (w : World α) :
    Nat → BasicIterator → BasicIterator → BasicIterator → BasicIterator → Val Bool
  | 0, _, _, _, _ => .fuel
  | n + 1, first1, last1, first2, last2 =>
    if first1.ne last1 && first2.ne last2 then
      match first1.deref w, first2.deref w with
      | some x, some y =>
        if x < y then .ok true
        else if y < x then .ok false
        else
          match first1.incr w, first2.incr w with
          | some f1, some f2 => std_lexicographical_compare w n f1 last1 f2 last2
          | _, _ => .ub
      | _, _ => .ub
    else .ok (!(first1.ne last1) && first2.ne last2)

/-- The loop `for (auto it = first; it != last; ++it) out.push_back(*it);` that a
caller writes to read a range. -/
def collect (w : World α) : Nat → BasicIterator → BasicIterator → Val (List α)
  | 0, _, _ => .fuel
  | n + 1, it, last =>
    if it.ne last then
      match it.deref w with
      | none => .ub
      | some x =>
        match it.incr w with
        | none => .ub
        | some it1 =>
          match collect w n it1 last with
          | .ok xs => .ok (x :: xs)
          | .ub => .ub
          | .fuel => .fuel
    else .ok []

/-- Applies `++it` to `it` `k` times, as `std::next(it, k)` does. -/
def advance (w : World α) : Nat → BasicIterator → Option BasicIterator
  | 0, it => some it
  | k + 1, it =>
    match it.incr w with
    | none => none
    | some it1 => advance w k it1

end Algorithms

/-! ## Member functions of SingleLinkedList -/

namespace SingleLinkedList

variable {α : Type}

/-- Translation of `begin()`: `Iterator{head_.next}`. -/
def begin (w : World α) (this : Nat) : BasicIterator := ⟨(w.objs this).head_next⟩

/-- Translation of `end()`: `Iterator(nullptr)`. -/
def end_ (_w : World α) (_this : Nat) : BasicIterator := ⟨.null⟩

/-- Translation of `before_begin()`: `Iterator(&head_)`. -/
def before_begin (_w : World α) (this : Nat) : BasicIterator := ⟨.head this⟩

/-- Translation of `cbegin()`: `return begin()`. -/
def cbegin (w : World α) (this : Nat) : BasicIterator := begin w this

/-- Translation of `cend()`: `return end()`. -/
def cend (w : World α) (this : Nat) : BasicIterator := end_ w this

/-- Translation of `cbefore_begin()`: `ConstIterator(const_cast<Node*>(&head_))`. -/
def cbefore_begin (_w : World α) (this : Nat) : BasicIterator := ⟨.head this⟩

/-- Translation of the default constructor: `size_(0)` and `head_.next = nullptr`. -/
def ctorDefault (w : World α) (this : Nat) : World α := w.setObj this ⟨.null, 0⟩

/-- Translation of `GetSize()`: `return size_`. -/
def GetSize (w : World α) (this : Nat) : Nat := (w.objs this).size_

/-- Translation of `IsEmpty()`: `return size_ == 0`. -/
def IsEmpty (w : World α) (this : Nat) : Bool := decide ((w.objs this).size_ = 0)

/-- The values met when iterating from `begin()` to `end()`. -/
def toList (w : World α) (this : Nat) : Val (List α) :=
  collect w w.bound (begin w this) (end_ w this)

/-- The loop of `Clear()`:
`while (head_.next != nullptr) { Node* next = head_.next; head_.next = next->next; delete next; }`. -/
def ClearLoop (this : Nat) : Nat → World α → Res Unit α
  | 0, _ => .fuel
  | n + 1, w =>
    if (w.objs this).head_next ≠ .null then
      let next := (w.objs this).head_next
      match w.next next with
      | none => .ub
      | some nn =>
        match (w.setObj this { w.objs this with head_next := nn }).deleteNode next with
        | none => .ub
        | some w1 => ClearLoop this n w1
    else .ok () w

/-- Translation of `Clear()`: the loop, then `size_ = 0`. -/
def Clear (w : World α) (this : Nat) : Res Unit α :=
  match ClearLoop this w.bound w with
  | .ok _ w1 => .ok () (w1.setObj this { w1.objs this with size_ := 0 })
  | .bad_alloc w1 => .bad_alloc w1
  | .ub => .ub
  | .fuel => .fuel

/-- The `for` loop of the range constructor over a source range holding `src`:
`current->next = new Node(*it, nullptr); current = current->next; ++size_;`. -/
def ctorLoop (this : Nat) : World α → NodePtr → List α → Res Unit α
  | w, _, [] => .ok () w
  | w, current, x :: rest =>
    match w.newNode x .null with
    | none => .bad_alloc w
    | some (p, w1) =>
      match w1.setNext current p with
      | none => .ub
      | some w2 =>
        match w2.next current with
        | none => .ub
        | some c1 => ctorLoop this (w2.incSize this) c1 rest

/-- Translation of `SingleLinkedList(Iterator begin, Iterator end)` constructing
object `this` from a source range that holds `src`: the members start as
`head_.next = nullptr` and `size_ = 0`, `current = &head_`, then the loop; a
`catch (...)` runs `Clear()` and rethrows. -/
def ctorRange (w : World α) (this : Nat) (src : List α) : Res Unit α :=
  match ctorLoop this (w.setObj this ⟨.null, 0⟩) (.head this) src with
  | .ok _ w1 => .ok () w1
  | .bad_alloc w1 =>
    match Clear w1 this with
    | .ok _ w2 => .bad_alloc w2
    | .bad_alloc w2 => .bad_alloc w2
    | .ub => .ub
    | .fuel => .fuel
  | .ub => .ub
  | .fuel => .fuel

/-- Translation of `SingleLinkedList(std::initializer_list<Type> values)`, which
delegates to the range constructor over `values.begin(), values.end()`. -/
def ctorInit (w : World α) (this : Nat) (values : List α) : Res Unit α :=
  ctorRange w this values

/-- The `for` loop of the range constructor when the source range is a range of list
iterators, as in the copy constructor: `for (auto it = begin; it != end; ++it) {`
`current->next = new Node(*it, nullptr); current = current->next; ++size_; }`. -/
def ctorLoopIt (this : Nat) :
    Nat → World α → NodePtr → BasicIterator → BasicIterator → Res Unit α
  | 0, _, _, _, _ => .fuel
  | n + 1, w, current, it, last =>
    if it.ne last then
      match it.deref w with
      | none => .ub
      | some x =>
        match w.newNode x .null with
        | none => .bad_alloc w
        | some (p, w1) =>
          match w1.setNext current p with
          | none => .ub
          | some w2 =>
            match w2.next current with
            | none => .ub
            | some c1 =>
              match it.incr (w2.incSize this) with
              | none => .ub
              | some it1 => ctorLoopIt this n (w2.incSize this) c1 it1 last
    else .ok () w

/-- Translation of `SingleLinkedList(Iterator begin, Iterator end)` constructing object
`this` from a range of list iterators. -/
def ctorRangeIt (w : World α) (this : Nat) (first last : BasicIterator) : Res Unit α :=
  match ctorLoopIt this w.bound (w.setObj this ⟨.null, 0⟩) (.head this) first last with
  | .ok _ w1 => .ok () w1
  | .bad_alloc w1 =>
    match Clear w1 this with
    | .ok _ w2 => .bad_alloc w2
    | .bad_alloc w2 => .bad_alloc w2
    | .ub => .ub
    | .fuel => .fuel
  | .ub => .ub
  | .fuel => .fuel

/-- Translation of the copy constructor, which delegates to the range constructor over
`other.begin(), other.end()`. -/
def ctorCopy (w : World α) (this other : Nat) : Res Unit α :=
  ctorRangeIt w this (begin w other) (end_ w other)

/-- Translation of the destructor: `Clear()`. -/
def dtor (w : World α) (this : Nat) : Res Unit α := Clear w this

/-- Translation of the member `swap(other)`: `std::swap(head_.next, other.head_.next);`
`std::swap(size_, other.size_);`, each swap being `tmp = x; x = y; y = tmp`. -/
def swap (w : World α) (this other : Nat) : World α :=
  let tmp := (w.objs this).head_next
  let w1 := w.setObj this { w.objs this with head_next := (w.objs other).head_next }
  let w2 := w1.setObj other { w1.objs other with head_next := tmp }
  let tmp2 := (w2.objs this).size_
  let w3 := w2.setObj this { w2.objs this with size_ := (w2.objs other).size_ }
  w3.setObj other { w3.objs other with size_ := tmp2 }

/-- Translation of `operator=`; `t` is the storage of the local list `t`, which is
destroyed when the block is left:
`if (head_.next != rhs.head_.next) { SingleLinkedList t(rhs.begin(), rhs.end()); swap(t);`
`size_ = rhs.size_; } return *this;`. -/
def assign (w : World α) (this rhs t : Nat) : Res Unit α :=
  if (w.objs this).head_next ≠ (w.objs rhs).head_next then
    match ctorRangeIt w t (begin w rhs) (end_ w rhs) with
    | .ok _ w1 =>
      let w2 := swap w1 this t
      let w3 := w2.setObj this { w2.objs this with size_ := (w2.objs rhs).size_ }
      dtor w3 t
    | .bad_alloc w1 => .bad_alloc w1
    | .ub => .ub
    | .fuel => .fuel
  else .ok () w

/-- Translation of `PushFront`: `head_.next = new Node(value, head_.next); ++size_;`. -/
def PushFront (w : World α) (this : Nat) (value : α) : Res Unit α :=
  match w.newNode value (w.objs this).head_next with
  | none => .bad_alloc w
  | some (p, w1) => .ok () ((w1.setObj this { w1.objs this with head_next := p }).incSize this)

/-- Translation of `InsertAfter(pos, value)`. -/
def InsertAfter (w : World α) (this : Nat) (pos : BasicIterator) (value : α) :
    Res BasicIterator α :=
  if pos.node_ = .null then .ok ⟨.null⟩ w
  else
    match w.next pos.node_ with
    | none => .ub
    | some nx =>
      match w.newNode value nx with
      | none => .bad_alloc w
      | some (new_node, w1) =>
        match w1.setNext pos.node_ new_node with
        | none => .ub
        | some w2 => .ok ⟨new_node⟩ (w2.incSize this)

/-- Translation of `PopFront()`. -/
def PopFront (w : World α) (this : Nat) : Res Unit α :=
  if !(IsEmpty w this) then
    match w.next (w.objs this).head_next with
    | none => .ub
    | some t =>
      match w.deleteNode (w.objs this).head_next with
      | none => .ub
      | some w1 => .ok () ((w1.setObj this { w1.objs this with head_next := t }).decSize this)
  else .ok () w

/-- Translation of `EraseAfter(pos)`. -/
def EraseAfter (w : World α) (this : Nat) (pos : BasicIterator) : Res BasicIterator α :=
  if pos.node_ = .null then .ok ⟨.null⟩ w
  else
    match w.next pos.node_ with
    | none => .ub
    | some target =>
      if target = .null then .ok ⟨.null⟩ w
      else
        match w.next target with
        | none => .ub
        | some tn =>
          match w.setNext pos.node_ tn with
          | none => .ub
          | some w1 =>
            match w1.deleteNode target with
            | none => .ub
            | some w2 =>
              match (w2.decSize this).next pos.node_ with
              | none => .ub
              | some r => .ok ⟨r⟩ (w2.decSize this)

end SingleLinkedList

/-- Translation of the free function `swap(lhs, rhs)`: `lhs.swap(rhs)`. -/
def swap {α : Type} (w : World α) (lhs rhs : Nat) : World α :=
  SingleLinkedList.swap w lhs rhs

/-! ## Relational operators -/

section Operators

variable {α : Type}

open SingleLinkedList

/-- Translation of `operator==`: `std::equal(lhs.begin(), lhs.end(), rhs.begin())`. -/
def operator_eq [BEq α] (w : World α) (lhs rhs : Nat) : Val Bool :=
  std_equal w w.bound (begin w lhs) (end_ w lhs) (begin w rhs)

/-- Translation of `operator!=`: `!(lhs == rhs)`. -/
def operator_ne [BEq α] (w : World α) (lhs rhs : Nat) : Val Bool :=
  match operator_eq w lhs rhs with
  | .ok r => .ok (!r)
  | .ub => .ub
  | .fuel => .fuel

/-- Translation of `operator<`:
`std::lexicographical_compare(lhs.begin(), lhs.end(), rhs.begin(), rhs.end())`. -/
def operator_lt [LT α] [DecidableRel (fun (x y : α) => x < y)]
    (w : World α) (lhs rhs : Nat) : Val Bool :=
  std_lexicographical_compare w w.bound (begin w lhs) (end_ w lhs) (begin w rhs) (end_ w rhs)

/-- Translation of `operator<=`: `lhs < rhs || lhs == rhs`, the right operand
evaluated only when the left one is false. -/
def operator_le [BEq α] [LT α] [DecidableRel (fun (x y : α) => x < y)]
    (w : World α) (lhs rhs : Nat) : Val Bool :=
  match operator_lt w lhs rhs with
  | .ok true => .ok true
  | .ok false => operator_eq w lhs rhs
  | .ub => .ub
  | .fuel => .fuel

/-- Translation of `operator>`: `!(lhs <= rhs)`. -/
def operator_gt [BEq α] [LT α] [DecidableRel (fun (x y : α) => x < y)]
    (w : World α) (lhs rhs : Nat) : Val Bool :=
  match operator_le w lhs rhs with
  | .ok r => .ok (!r)
  | .ub => .ub
  | .fuel => .fuel

/-- Translation of `operator>=`: `!(rhs < lhs)`. -/
def operator_ge [LT α] [DecidableRel (fun (x y : α) => x < y)]
    (w : World α) (lhs rhs : Nat) : Val Bool :=
  match operator_lt w rhs lhs with
  | .ok r => .ok (!r)
  | .ub => .ub
  | .fuel => .fuel

end Operators

/-! ## Two lists built by the initializer-list constructor -/

/-- The state after `SingleLinkedList<Nat> a(xs), b(ys);` in a store of `cap` cells:
`a` is object `0` and `b` is object `1`. -/
def twoLists (cap : Nat) (xs ys : List Nat) : Option (World Nat) :=
  match SingleLinkedList.ctorInit (World.empty Nat cap) 0 xs with
  | .ok _ w1 =>
    match SingleLinkedList.ctorInit w1 1 ys with
    | .ok _ w2 => some w2
    | _ => none
  | _ => none

/-- A state with five cells in which list object `0` holds `[1, 2, 3]` in cells `0`, `1`,
`2` and cells `3`, `4` are free. -/
def sampleWorld : World Nat :=
  { heap := [some ⟨1, .node 1⟩, some ⟨2, .node 2⟩, some ⟨3, .null⟩, none, none],
    objs := fun l => if l = 0 then ⟨.node 0, 3⟩ else ⟨.null, 0⟩ }

/-- A state in which list object `0` holds `[1, 2]` and list object `1` holds `[1, 3]`. -/
def pairWorld : World Nat :=
  { heap := [some ⟨1, .node 1⟩, some ⟨2, .null⟩, some ⟨1, .node 3⟩, some ⟨3, .null⟩],
    objs := fun l => if l = 0 then ⟨.node 0, 2⟩ else if l = 1 then ⟨.node 2, 2⟩ else ⟨.null, 0⟩ }

/-- A state with two free cells in which list object `0` is empty. -/
def emptyWorld : World Nat := World.empty Nat 2

/-! ## Lexicographic order on value sequences -/

/-- The order on value sequences as the specification words it: at the first index where
the two sequences differ the element of `xs` is less than that of `ys`, or `xs` is a
proper prefix of `ys`. -/
def LexLess {α : Type} [LT α] (xs ys : List α) : Prop :=
  (∃ i, ∃ (hx : i < xs.length) (hy : i < ys.length),
    xs.take i = ys.take i ∧ xs[i] ≠ ys[i] ∧ xs[i] < ys[i]) ∨
  (xs.length < ys.length ∧ ys.take xs.length = xs)

/-- The loop of `std::lexicographical_compare` run on two value sequences. -/
def lexCompare {α : Type} [LT α] [DecidableRel (fun (x y : α) => x < y)] :
    List α → List α → Bool
  | [], [] => false
  | [], _ :: _ => true
  | _ :: _, [] => false
  | x :: xs, y :: ys => if x < y then true else if y < x then false else lexCompare xs ys

/-! ## Sequences of calls -/

/-- The state a caller sees after a call: the one at normal return or the one in which
the exception leaves the function; none after undefined behaviour. -/
def Res.state {ρ α : Type} : Res ρ α → Option (World α)
  | .ok _ w => some w
  | .bad_alloc w => some w
  | .ub => none
  | .fuel => none

/-- A call of a constructor or of a mutating function of the header.  A position
argument is given as the number `k` of increments that lead to it from
`before_begin()`: `0` is the sentinel, `1` to the size are the live nodes, one more is
`end()`. -/
inductive Call (α : Type) where
  | ctorDefault (this : Nat) : Call α
  | ctorRange (this : Nat) (src : List α) : Call α
  | ctorInit (this : Nat) (values : List α) : Call α
  | ctorCopy (this other : Nat) : Call α
  | PushFront (this : Nat) (value : α) : Call α
  | PopFront (this : Nat) : Call α
  | InsertAfter (this : Nat) (k : Nat) (value : α) : Call α
  | EraseAfter (this : Nat) (k : Nat) : Call α
  | Clear (this : Nat) : Call α
  | swap (lhs rhs : Nat) : Call α
  | assign (this rhs t : Nat) : Call α

/-- Runs one call; none when the call is not one the header permits (a position that no
number of increments reaches, a local `t` of `operator=` that is one of its operands) or
when it has undefined behaviour. -/
def run {α : Type} (w : World α) : Call α → Option (World α)
  | .ctorDefault this => some (SingleLinkedList.ctorDefault w this)
  | .ctorRange this src => (SingleLinkedList.ctorRange w this src).state
  | .ctorInit this values => (SingleLinkedList.ctorInit w this values).state
  | .ctorCopy this other => (SingleLinkedList.ctorCopy w this other).state
  | .PushFront this value => (SingleLinkedList.PushFront w this value).state
  | .PopFront this => (SingleLinkedList.PopFront w this).state
  | .InsertAfter this k value =>
    match advance w k (SingleLinkedList.before_begin w this) with
    | none => none
    | some pos => (SingleLinkedList.InsertAfter w this pos value).state
  | .EraseAfter this k =>
    match advance w k (SingleLinkedList.before_begin w this) with
    | none => none
    | some pos => (SingleLinkedList.EraseAfter w this pos).state
  | .Clear this => (SingleLinkedList.Clear w this).state
  | .swap lhs rhs => some (swap w lhs rhs)
  | .assign this rhs t =>
    if t = this ∨ t = rhs then none else (SingleLinkedList.assign w this rhs t).state

/-- Runs a sequence of calls, one after the other. -/
def runAll {α : Type} (w : World α) : List (Call α) → Option (World α)
  | [] => some w
  | c :: cs =>
    match run w c with
    | none => none
    | some w1 => runAll w1 cs

/-- The states a program reaches: from a store of fewer than `2^64` free cells in which
every list object is default-constructed, by a sequence of calls. -/
def Reachable {α : Type} (w : World α) : Prop :=
  ∃ cap calls, cap < SIZE_MOD ∧ runAll (World.empty α cap) calls = some w

/-- Follows `next` links from `p` until there is no link and counts the nodes met. -/
def countFrom {α : Type} (w : World α) : Nat → NodePtr → Val Nat
  | 0, _ => .fuel
  | n + 1, p =>
    if p = .null then .ok 0
    else
      match w.next p with
      | none => .ub
      | some q =>
        match countFrom w n q with
        | .ok k => .ok (k + 1)
        | .ub => .ub
        | .fuel => .fuel

/-- The number of real nodes reachable by following `next` links from the sentinel of
list `l`. -/
def countNodes {α : Type} (w : World α) (l : Nat) : Val Nat :=
  match w.next (.head l) with
  | none => .ub
  | some p => countFrom w w.bound p

/-- Two constructor calls: list `0` from `[1, 2]` and list `1` from `[3]`. -/
def builtCalls : List (Call Nat) := [.ctorInit 0 [1, 2], .ctorInit 1 [3]]

/-- The state reached by `builtCalls` in a store of eight cells. -/
def builtWorld : World Nat :=
  (runAll (World.empty Nat 8) builtCalls).getD (World.empty Nat 0)

/-- List `l` holds the value sequence `xs` and its cached size is the length of `xs`. -/
def Holds {α : Type} (w : World α) (l : Nat) (xs : List α) : Prop :=
  SingleLinkedList.toList w l = .ok xs ∧ SingleLinkedList.GetSize w l = xs.length

/-- A longer sequence of calls on several lists. -/
def tracedCalls : List (Call Nat) :=
  [.ctorInit 0 [1, 2], .ctorRange 1 [3], .PushFront 1 9, .InsertAfter 0 1 7, .EraseAfter 0 0,
    .swap 0 1, .assign 1 0 2, .PopFront 0, .ctorCopy 3 1, .InsertAfter 3 2 5, .Clear 0,
    .ctorDefault 4]

/-- The state reached by `tracedCalls` in a store of eight cells. -/
def tracedWorld : World Nat :=
  (runAll (World.empty Nat 8) tracedCalls).getD (World.empty Nat 0)

/-! ## Chains of nodes -/

section Chains

variable {α : Type}

/-- The nodes `cs` (address and value) are linked in this order from `p`, and the link
of the last one is `q`. -/
def Seg (w : World α) : NodePtr → List (Nat × α) → NodePtr → Prop
  | p, [], q => p = q
  | p, c :: cs, q => p = .node c.1 ∧ ∃ nx, w.cell c.1 = some ⟨c.2, nx⟩ ∧ Seg w nx cs q

/-- List object `l` owns exactly the nodes `cs`, in this order. -/
def Repr (w : World α) (l : Nat) (cs : List (Nat × α)) : Prop :=
  Seg w (w.objs l).head_next cs .null

/-- The pointer held by the iterator `k` increments after `before_begin()` of list
`l`, whose nodes are `cs`. -/
def posAt (l : Nat) (cs : List (Nat × α)) : Nat → NodePtr
  | 0 => .head l
  | k + 1 => match cs[k]? with
    | some c => .node c.1
    | none => .null

/-- The list objects of `w` own the nodes `own l`: every chain is as `own l` says, every
cached size is right, no node belongs to two lists, and the store has fewer than `2^64`
cells. -/
def InvOwn (w : World α) (own : Nat → List (Nat × α)) : Prop :=
  w.heap.length < SIZE_MOD ∧
  (∀ l, Repr w l (own l) ∧ (w.objs l).size_ = (own l).length) ∧
  (∀ l j, l ≠ j → ∀ c ∈ own l, c.1 ∉ (own j).map Prod.fst)

/-- A call on list `l`, which owned the nodes `cs` in `w`, ended in `w2` with `l` owning
`cs2`: the chain and the cached size of `l` are right, live nodes outside `cs` and the
other list objects are untouched, and the nodes of `cs2` are old ones or were free. -/
def Updates (w : World α) (l : Nat) (cs : List (Nat × α)) (w2 : World α)
    (cs2 : List (Nat × α)) : Prop :=
  Repr w2 l cs2 ∧ (w2.objs l).size_ = cs2.length ∧ w2.heap.length = w.heap.length ∧
  (∀ b, w.cell b ≠ none → b ∉ cs.map Prod.fst → w2.cell b = w.cell b) ∧
  (∀ c ∈ cs2, c.1 ∈ cs.map Prod.fst ∨ w.cell c.1 = none) ∧
  (∀ j, j ≠ l → w2.objs j = w.objs j)

/-- The ownership map `own` with the nodes of list `l` replaced by `cs`. -/
def setOwn (own : Nat → List (Nat × α)) (l : Nat) (cs : List (Nat × α)) :
    Nat → List (Nat × α) :=
  fun j => if j = l then cs else own j

/-- The ownership map `own` with the nodes of lists `a` and `b` exchanged. -/
def swapOwn (own : Nat → List (Nat × α)) (a b : Nat) : Nat → List (Nat × α) :=
  fun j => if j = a then own b else if j = b then own a else own j

theorem firstFree_some : ∀ (h : List (Option (Node α))) (a : Nat),
    firstFree h = some a → h[a]? = some none
  | [], _, hf => by simp [firstFree] at hf
  | none :: _, a, hf => by
    simp [firstFree] at hf
    subst hf
    simp
  | some _ :: h, a, hf => by
    simp only [firstFree, Option.map_eq_some'] at hf
    obtain ⟨b, hb, rfl⟩ := hf
    simpa using firstFree_some h b hb

theorem firstFree_none : ∀ (h : List (Option (Node α))),
    firstFree h = none → h.countP Option.isNone = 0
  | [], _ => by simp
  | none :: _, hf => by simp [firstFree] at hf
  | some _ :: h, hf => by
    simp only [firstFree, Option.map_eq_none'] at hf
    simpa using firstFree_none h hf

theorem cell_set (w : World α) (a b : Nat) (x : Option (Node α)) (ha : a < w.heap.length) :
    World.cell { w with heap := w.heap.set a x } b = if b = a then x else w.cell b := by
  unfold World.cell
  by_cases hba : b = a
  · subst hba
    simp [ha]
  · have : a ≠ b := fun h => hba h.symm
    simp [hba, List.getElem?_set_ne this]

theorem cell_lt {w : World α} {a : Nat} {n : Node α} (h : w.cell a = some n) :
    a < w.heap.length := by
  unfold World.cell at h
  by_contra hlt
  have : w.heap[a]? = none := List.getElem?_eq_none (by omega)
  simp [this] at h

theorem cell_setObj (w : World α) (l : Nat) (o : SingleLinkedList) (a : Nat) :
    (w.setObj l o).cell a = w.cell a := rfl

theorem Seg.frame {w w1 : World α} : ∀ {p : NodePtr} {cs : List (Nat × α)} {q : NodePtr},
    (∀ c ∈ cs, w1.cell c.1 = w.cell c.1) → Seg w p cs q → Seg w1 p cs q
  | _, [], _, _, h => h
  | _, c :: cs, _, hc, ⟨hp, nx, hcell, hrest⟩ =>
    ⟨hp, nx, by rw [hc c (List.mem_cons_self _ _)]; exact hcell,
      Seg.frame (fun d hd => hc d (List.mem_cons_of_mem _ hd)) hrest⟩

theorem Seg.append {w : World α} : ∀ {p : NodePtr} {cs ds : List (Nat × α)} {q : NodePtr},
    Seg w p (cs ++ ds) q ↔ ∃ m, Seg w p cs m ∧ Seg w m ds q
  | p, [], ds, q => by simp [Seg]
  | p, c :: cs, ds, q => by
    simp only [List.cons_append, Seg]
    constructor
    · rintro ⟨hp, nx, hcell, hrest⟩
      obtain ⟨m, h1, h2⟩ := Seg.append.mp hrest
      exact ⟨m, ⟨hp, nx, hcell, h1⟩, h2⟩
    · rintro ⟨m, ⟨hp, nx, hcell, h1⟩, h2⟩
      exact ⟨hp, nx, hcell, Seg.append.mpr ⟨m, h1, h2⟩⟩

theorem Seg.det {w : World α} : ∀ {p : NodePtr} {cs ds : List (Nat × α)},
    Seg w p cs .null → Seg w p ds .null → cs = ds
  | _, [], [], _, _ => rfl
  | _, [], d :: ds, h1, ⟨h2, _⟩ => by
    simp only [Seg] at h1
    rw [h1] at h2
    cases h2
  | _, c :: cs, [], ⟨h1, _⟩, h2 => by
    simp only [Seg] at h2
    rw [h2] at h1
    cases h1
  | _, c :: cs, d :: ds, ⟨h1, nx, hc, hr⟩, ⟨h2, ny, hd, hs⟩ => by
    rw [h1] at h2
    have hcd : c.1 = d.1 := by injection h2
    rw [← hcd, hc] at hd
    have hv : c.2 = d.2 := by injection hd with hd; injection hd
    have hn : nx = ny := by injection hd with hd; injection hd
    subst hn
    have := Seg.det hr hs
    subst this
    congr 1
    exact Prod.ext hcd hv

theorem Seg.mem_lt {w : World α} : ∀ {p : NodePtr} {cs : List (Nat × α)} {q : NodePtr},
    Seg w p cs q → ∀ c ∈ cs, c.1 < w.heap.length
  | _, [], _, _, _, hc => by cases hc
  | _, d :: ds, _, ⟨_, _, hcell, hrest⟩, c, hc => by
    rcases List.mem_cons.mp hc with rfl | hmem
    · exact cell_lt hcell
    · exact Seg.mem_lt hrest c hmem

theorem Seg.nodup {w : World α} : ∀ {p : NodePtr} {cs : List (Nat × α)},
    Seg w p cs .null → (cs.map Prod.fst).Nodup
  | _, [], _ => by simp
  | p, c :: cs, h => by
    obtain ⟨hp, nx, hcell, hrest⟩ := h
    rw [List.map_cons, List.nodup_cons]
    refine ⟨?_, Seg.nodup hrest⟩
    intro hmem
    obtain ⟨d, hd, hdc⟩ := List.mem_map.mp hmem
    obtain ⟨s, t, hst⟩ := List.append_of_mem hd
    have h4 : Seg w (.node c.1) (c :: cs) .null := ⟨rfl, nx, hcell, hrest⟩
    rw [hst] at hrest
    obtain ⟨m, _, h2⟩ := Seg.append.mp hrest
    have h3 : Seg w (.node c.1) (d :: t) .null := by
      obtain ⟨hm, r⟩ := h2
      exact ⟨by rw [← hdc], r⟩
    have := congrArg List.length (Seg.det h3 h4)
    rw [hst] at this
    simp at this
    omega

theorem Seg.length_le {w : World α} {p : NodePtr} {cs : List (Nat × α)}
    (h : Seg w p cs .null) : cs.length ≤ w.heap.length := by
  have hsub : cs.map Prod.fst ⊆ List.range w.heap.length := by
    intro a ha
    obtain ⟨c, hc, rfl⟩ := List.mem_map.mp ha
    exact List.mem_range.mpr (Seg.mem_lt h c hc)
  have := (List.subperm_of_subset (Seg.nodup h) hsub).length_le
  simpa using this

theorem collect_of_seg {w : World α} : ∀ (n : Nat) {p : NodePtr} {cs : List (Nat × α)},
    Seg w p cs .null → cs.length < n → collect w n ⟨p⟩ ⟨.null⟩ = .ok (cs.map Prod.snd)
  | 0, _, _, _, hn => by omega
  | n + 1, p, [], h, _ => by
    simp only [Seg] at h
    subst h
    simp [collect, BasicIterator.ne]
  | n + 1, p, c :: cs, ⟨hp, nx, hcell, hrest⟩, hn => by
    subst hp
    have := collect_of_seg n hrest (by simpa using hn)
    simp [collect, BasicIterator.ne, BasicIterator.deref, BasicIterator.incr, World.value,
      World.next, hcell, this]

theorem seg_of_collect {w : World α} : ∀ (n : Nat) {p : NodePtr} {xs : List α},
    collect w n ⟨p⟩ ⟨.null⟩ = .ok xs → ∃ cs, Seg w p cs .null ∧ cs.map Prod.snd = xs
  | 0, _, _, h => by simp [collect] at h
  | n + 1, p, xs, h => by
    unfold collect at h
    cases p with
    | null =>
      simp [BasicIterator.ne] at h
      subst h
      exact ⟨[], rfl, rfl⟩
    | head l => simp [BasicIterator.ne, BasicIterator.deref, World.value] at h
    | node a =>
      cases hc : w.cell a with
      | none => simp [BasicIterator.ne, BasicIterator.deref, World.value, hc] at h
      | some nd =>
        simp only [BasicIterator.ne, BasicIterator.deref, BasicIterator.incr, World.value,
          World.next, hc] at h
        cases hr : collect w n ⟨nd.next⟩ ⟨.null⟩ with
        | ok ys =>
          simp [hr] at h
          obtain ⟨cs, h1, h2⟩ := seg_of_collect n hr
          exact ⟨(a, nd.value) :: cs, ⟨rfl, nd.next, by simp [hc], h1⟩, by simp [h2, h]⟩
        | ub => simp [hr] at h
        | fuel => simp [hr] at h

theorem toList_of_repr {w : World α} {l : Nat} {cs : List (Nat × α)} (h : Repr w l cs) :
    SingleLinkedList.toList w l = .ok (cs.map Prod.snd) :=
  collect_of_seg _ h (Nat.lt_succ_of_le (Seg.length_le h))

theorem repr_of_toList {w : World α} {l : Nat} {xs : List α}
    (h : SingleLinkedList.toList w l = .ok xs) : ∃ cs, Repr w l cs ∧ cs.map Prod.snd = xs :=
  seg_of_collect _ h

theorem posAt_take (l : Nat) (cs : List (Nat × α)) (k : Nat) (hk : k ≤ cs.length) :
    posAt l (cs.take k) k = posAt l cs k := by
  cases k with
  | zero => rfl
  | succ j => simp [posAt, List.getElem?_take]

theorem posAt_ne_null (l : Nat) (cs : List (Nat × α)) (k : Nat) (hk : k ≤ cs.length) :
    posAt l cs k ≠ .null := by
  cases k with
  | zero => simp [posAt]
  | succ j =>
    have : j < cs.length := hk
    simp [posAt, List.getElem?_eq_getElem this]

theorem eq_nil_or_snoc (pre : List (Nat × α)) : pre = [] ∨ ∃ pre1 c, pre = pre1 ++ [c] := by
  rcases List.eq_nil_or_concat pre with h | ⟨pre1, c, h⟩
  · exact Or.inl h
  · exact Or.inr ⟨pre1, c, by rw [h, List.concat_eq_append]⟩

theorem next_posAt_length {w : World α} {l : Nat} {pre : List (Nat × α)} {q : NodePtr}
    (h : Seg w (w.objs l).head_next pre q) : w.next (posAt l pre pre.length) = some q := by
  rcases eq_nil_or_snoc pre with rfl | ⟨pre1, c, rfl⟩
  · simp only [Seg] at h
    simp [posAt, World.next, h]
  · obtain ⟨m, _, hm, nx, hcell, hq⟩ := Seg.append.mp h
    simp only [Seg] at hq
    subst hq
    simp [posAt, World.next, hcell]

theorem Seg.split {w : World α} {p : NodePtr} {cs : List (Nat × α)} {q : NodePtr}
    (h : Seg w p cs q) (k : Nat) : ∃ m, Seg w p (cs.take k) m ∧ Seg w m (cs.drop k) q :=
  Seg.append.mp (by rw [List.take_append_drop]; exact h)

theorem advance_seg {w : World α} (l : Nat) : ∀ (k : Nat) {p : NodePtr} {cs : List (Nat × α)},
    Seg w p cs .null → k ≤ cs.length → advance w k ⟨p⟩ = some ⟨posAt l cs (k + 1)⟩
  | 0, p, [], h, _ => by
    simp only [Seg] at h
    simp [advance, posAt, h]
  | 0, p, c :: cs, ⟨hp, _⟩, _ => by simp [advance, posAt, hp]
  | k + 1, p, [], _, hk => by simp at hk
  | k + 1, p, c :: cs, ⟨hp, nx, hcell, hrest⟩, hk => by
    have := advance_seg l k hrest (by simpa using hk)
    subst hp
    simp only [advance, BasicIterator.incr, World.next, hcell]
    simpa [posAt] using this

theorem advance_before_begin {w : World α} {l : Nat} {cs : List (Nat × α)} (h : Repr w l cs)
    (k : Nat) (hk : k ≤ cs.length + 1) :
    advance w k (SingleLinkedList.before_begin w l) = some ⟨posAt l cs k⟩ := by
  cases k with
  | zero => rfl
  | succ j =>
    have := advance_seg l j h (by omega)
    simpa [advance, SingleLinkedList.before_begin, BasicIterator.incr, World.next] using this

theorem setNext_posAt {w : World α} {l : Nat} {pre : List (Nat × α)} {m : NodePtr}
    (h : Seg w (w.objs l).head_next pre m) (hnd : (pre.map Prod.fst).Nodup) (q : NodePtr) :
    ∃ w2, w.setNext (posAt l pre pre.length) q = some w2 ∧
      Seg w2 (w2.objs l).head_next pre q ∧ w2.heap.length = w.heap.length ∧
      (∀ b, b ∉ pre.map Prod.fst → w2.cell b = w.cell b) ∧
      (w2.objs l).size_ = (w.objs l).size_ ∧ (∀ k, k ≠ l → w2.objs k = w.objs k) := by
  rcases eq_nil_or_snoc pre with rfl | ⟨pre1, c, rfl⟩
  · refine ⟨_, rfl, ?_, rfl, fun _ _ => rfl, ?_, ?_⟩
    · simp [Seg, World.setObj]
    · simp [World.setObj]
    · intro k hk
      simp [World.setObj, hk]
  · obtain ⟨m1, h1, hm, nx, hcell, hq⟩ := Seg.append.mp h
    have hlt := cell_lt hcell
    have hpos : posAt l (pre1 ++ [c]) (pre1 ++ [c]).length = .node c.1 := by simp [posAt]
    rw [List.map_append, List.nodup_append] at hnd
    have hc1 : c.1 ∉ pre1.map Prod.fst := fun hin => hnd.2.2 hin (by simp)
    refine ⟨{ w with heap := w.heap.set c.1 (some ⟨c.2, q⟩) }, ?_, ?_, ?_, ?_, rfl, fun _ _ => rfl⟩
    · rw [hpos]
      simp [World.setNext, hcell]
    · refine Seg.append.mpr ⟨m1, Seg.frame ?_ h1, hm, q, ?_, rfl⟩
      · intro d hd
        rw [cell_set w _ _ _ hlt, if_neg]
        intro hdc
        exact hc1 (hdc ▸ List.mem_map_of_mem _ hd)
      · rw [cell_set w _ _ _ hlt, if_pos rfl]
    · simp
    · intro b hb
      rw [cell_set w _ _ _ hlt, if_neg]
      intro hbc
      exact hb (by simp [hbc])

theorem Seg.mem_cell {w : World α} : ∀ {p : NodePtr} {cs : List (Nat × α)} {q : NodePtr},
    Seg w p cs q → ∀ c ∈ cs, ∃ nx, w.cell c.1 = some ⟨c.2, nx⟩
  | _, [], _, _, _, hc => by cases hc
  | _, d :: ds, _, ⟨_, nx, hcell, hrest⟩, c, hc => by
    rcases List.mem_cons.mp hc with rfl | hmem
    · exact ⟨nx, hcell⟩
    · exact Seg.mem_cell hrest c hmem

theorem Seg.null_iff {w : World α} {p : NodePtr} {cs : List (Nat × α)}
    (h : Seg w p cs .null) : p = .null ↔ cs = [] := by
  cases cs with
  | nil => simpa [Seg] using h
  | cons c cs =>
    obtain ⟨hp, _⟩ := h
    simp [hp]

theorem nodup_split {cs : List (Nat × α)} (h : (cs.map Prod.fst).Nodup) (k : Nat) :
    ((cs.take k).map Prod.fst).Nodup ∧ ((cs.drop k).map Prod.fst).Nodup ∧
      ∀ x, x ∈ (cs.take k).map Prod.fst → x ∈ (cs.drop k).map Prod.fst → False := by
  rw [← List.take_append_drop k cs, List.map_append, List.nodup_append] at h
  exact ⟨h.1, h.2.1, fun x h1 h2 => h.2.2 h1 h2⟩

theorem Seg.setObj {w : World α} {p : NodePtr} {cs : List (Nat × α)} {q : NodePtr}
    (h : Seg w p cs q) (l : Nat) (o : SingleLinkedList) : Seg (w.setObj l o) p cs q :=
  Seg.frame (fun c _ => cell_setObj w l o c.1) h

theorem InsertAfter_repr {w : World α} {l : Nat} {cs : List (Nat × α)} (h : Repr w l cs)
    (k : Nat) (hk : k ≤ cs.length) (v : α) (a : Nat) (hfree : firstFree w.heap = some a) :
    ∃ w2, SingleLinkedList.InsertAfter w l ⟨posAt l cs k⟩ v = .ok ⟨.node a⟩ w2 ∧
      Repr w2 l (cs.take k ++ (a, v) :: cs.drop k) ∧
      w2.heap.length = w.heap.length ∧
      (w2.objs l).size_ = ((w.objs l).size_ + 1) % SIZE_MOD ∧
      (∀ b, b ∉ cs.map Prod.fst → b ≠ a → w2.cell b = w.cell b) ∧
      (∀ j, j ≠ l → w2.objs j = w.objs j) := by
  obtain ⟨m, h1, h2⟩ := Seg.split h k
  obtain ⟨hnd1, _, hdisj⟩ := nodup_split (Seg.nodup h) k
  have hnext : w.next (posAt l cs k) = some m := by
    have := next_posAt_length (l := l) h1
    rwa [List.length_take, min_eq_left hk, posAt_take l cs k hk] at this
  have hfa := firstFree_some _ _ hfree
  have ha_lt : a < w.heap.length := by
    by_contra hlt
    rw [List.getElem?_eq_none (by omega)] at hfa
    cases hfa
  have ha_cell : w.cell a = none := by simp [World.cell, hfa]
  have hne : ∀ c ∈ cs, c.1 ≠ a := by
    intro c hc hca
    obtain ⟨nx, hcell⟩ := Seg.mem_cell h c hc
    rw [hca, ha_cell] at hcell
    cases hcell
  have hcell1 : ∀ b, b ≠ a →
      World.cell { w with heap := w.heap.set a (some ⟨v, m⟩) } b = w.cell b := by
    intro b hb
    rw [cell_set w _ _ _ ha_lt, if_neg hb]
  have h1f : Seg { w with heap := w.heap.set a (some ⟨v, m⟩) }
      (w.objs l).head_next (cs.take k) m :=
    Seg.frame (fun c hc => hcell1 _ (hne c (List.mem_of_mem_take hc))) h1
  have h2f : Seg { w with heap := w.heap.set a (some ⟨v, m⟩) } m (cs.drop k) .null :=
    Seg.frame (fun c hc => hcell1 _ (hne c (List.mem_of_mem_drop hc))) h2
  obtain ⟨w2, hset, hseg, hlen, hcells, hsize, hobjs⟩ :=
    setNext_posAt (l := l) h1f hnd1 (.node a)
  rw [List.length_take, min_eq_left hk, posAt_take l cs k hk] at hset
  have ha_take : a ∉ (cs.take k).map Prod.fst := by
    intro hin
    obtain ⟨c, hc, hca⟩ := List.mem_map.mp hin
    exact hne c (List.mem_of_mem_take hc) hca
  refine ⟨w2.incSize l, ?_, ?_, ?_, ?_, ?_, ?_⟩
  · simp only [SingleLinkedList.InsertAfter, if_neg (posAt_ne_null l cs k hk), hnext,
      World.newNode, hfree, hset]
  · have hmid : Seg w2 (.node a) ((a, v) :: cs.drop k) .null := by
      refine ⟨rfl, m, ?_, Seg.frame ?_ h2f⟩
      · rw [hcells a ha_take, cell_set w _ _ _ ha_lt, if_pos rfl]
      · intro c hc
        exact hcells _ (fun hin => hdisj _ hin (List.mem_map_of_mem _ hc))
    have := Seg.append.mpr ⟨_, hseg, hmid⟩
    exact Seg.setObj (by simpa [World.incSize, World.setObj] using this) _ _
  · simpa [World.incSize, World.setObj] using hlen
  · simp [World.incSize, World.setObj, hsize]
  · intro b hb hba
    have hb1 : b ∉ (cs.take k).map Prod.fst := by
      intro hin
      obtain ⟨c, hc, hcb⟩ := List.mem_map.mp hin
      exact hb (hcb ▸ List.mem_map_of_mem _ (List.mem_of_mem_take hc))
    show w2.cell b = w.cell b
    rw [hcells b hb1, hcell1 b hba]
  · intro j hj
    simp [World.incSize, World.setObj, hj, hobjs j hj]

theorem free_lt {w : World α} {a : Nat} (hfree : firstFree w.heap = some a) :
    a < w.heap.length := by
  have hfa := firstFree_some _ _ hfree
  by_contra hlt
  rw [List.getElem?_eq_none (by omega)] at hfa
  cases hfa

theorem free_cell {w : World α} {a : Nat} (hfree : firstFree w.heap = some a) :
    w.cell a = none := by
  simp [World.cell, firstFree_some _ _ hfree]

theorem Seg.ne_of_cell_none {w : World α} {p : NodePtr} {cs : List (Nat × α)} {q : NodePtr}
    (h : Seg w p cs q) {a : Nat} (ha : w.cell a = none) : ∀ c ∈ cs, c.1 ≠ a := by
  intro c hc hca
  obtain ⟨nx, hcell⟩ := Seg.mem_cell h c hc
  rw [hca, ha] at hcell
  cases hcell

theorem EraseAfter_repr {w : World α} {l : Nat} {cs : List (Nat × α)} (h : Repr w l cs)
    (k : Nat) (hk : k < cs.length) :
    ∃ w2 tn, SingleLinkedList.EraseAfter w l ⟨posAt l cs k⟩ = .ok ⟨tn⟩ w2 ∧
      Repr w2 l (cs.eraseIdx k) ∧ Seg w2 tn (cs.drop (k + 1)) .null ∧
      w2.next (posAt l cs k) = some tn ∧
      w2.heap.length = w.heap.length ∧
      (w2.objs l).size_ = ((w.objs l).size_ + (SIZE_MOD - 1)) % SIZE_MOD ∧
      (∀ b, b ∉ cs.map Prod.fst → w2.cell b = w.cell b) ∧
      (∀ j, j ≠ l → w2.objs j = w.objs j) := by
  obtain ⟨m, h1, h2⟩ := Seg.split h k
  obtain ⟨hnd1, hnd2, hdisj⟩ := nodup_split (Seg.nodup h) k
  have hnext : w.next (posAt l cs k) = some m := by
    have := next_posAt_length (l := l) h1
    rwa [List.length_take, min_eq_left (Nat.le_of_lt hk), posAt_take l cs k (Nat.le_of_lt hk)]
      at this
  rw [List.drop_eq_getElem_cons hk] at h2 hnd2 hdisj
  obtain ⟨hm, tn, hcell, h3⟩ := h2
  rw [List.map_cons, List.nodup_cons] at hnd2
  have ht_take : (cs[k]).1 ∉ (cs.take k).map Prod.fst :=
    fun hin => hdisj _ hin (List.mem_map_of_mem _ (List.mem_cons_self _ _))
  obtain ⟨w1, hset, hseg, hlen, hcells, hsize, hobjs⟩ := setNext_posAt (l := l) h1 hnd1 tn
  rw [List.length_take, min_eq_left (Nat.le_of_lt hk), posAt_take l cs k (Nat.le_of_lt hk)]
    at hset
  have hcell1 : w1.cell (cs[k]).1 = some ⟨(cs[k]).2, tn⟩ := by rw [hcells _ ht_take, hcell]
  have hlt1 := cell_lt hcell1
  have hcell2 : ∀ b, World.cell { w1 with heap := w1.heap.set (cs[k]).1 none } b =
      if b = (cs[k]).1 then none else w1.cell b := fun b => cell_set w1 _ _ _ hlt1
  have hseg2 : Seg { w1 with heap := w1.heap.set (cs[k]).1 none } (w1.objs l).head_next
      (cs.take k) tn := by
    refine Seg.frame (fun c hc => ?_) hseg
    rw [hcell2, if_neg]
    intro hct
    exact ht_take (hct ▸ List.mem_map_of_mem _ hc)
  have hseg3 : Seg { w1 with heap := w1.heap.set (cs[k]).1 none } tn (cs.drop (k + 1)) .null := by
    refine Seg.frame (fun c hc => ?_) h3
    have hmem := List.mem_map_of_mem Prod.fst hc
    rw [hcell2, if_neg (fun (hct : c.1 = (cs[k]).1) => hnd2.1 (hct ▸ hmem))]
    exact hcells _ (fun hin => hdisj _ hin (List.mem_map_of_mem _ (List.mem_cons_of_mem _ hc)))
  have hrepr : Seg { w1 with heap := w1.heap.set (cs[k]).1 none } (w1.objs l).head_next
      (cs.eraseIdx k) .null := by
    rw [List.eraseIdx_eq_take_drop_succ]
    exact Seg.append.mpr ⟨tn, hseg2, hseg3⟩
  have hret : (World.decSize { w1 with heap := w1.heap.set (cs[k]).1 none } l).next
      (posAt l cs k) = some tn := by
    have hs : Seg (World.decSize { w1 with heap := w1.heap.set (cs[k]).1 none } l)
        ((World.decSize { w1 with heap := w1.heap.set (cs[k]).1 none } l).objs l).head_next
        (cs.take k) tn := by
      have := Seg.setObj hseg2 l
        { head_next := (w1.objs l).head_next,
          size_ := ((w1.objs l).size_ + (SIZE_MOD - 1)) % SIZE_MOD }
      simpa [World.decSize, World.setObj] using this
    have := next_posAt_length hs
    rwa [List.length_take, min_eq_left (Nat.le_of_lt hk), posAt_take l cs k (Nat.le_of_lt hk)]
      at this
  refine ⟨World.decSize { w1 with heap := w1.heap.set (cs[k]).1 none } l, tn, ?_, ?_, ?_, hret,
    ?_, ?_, ?_, ?_⟩
  · have hnn : ¬ (NodePtr.node (cs[k]).1 = NodePtr.null) := by simp
    have hnext2 : w.next (.node (cs[k]).1) = some tn := by simp [World.next, hcell]
    have hdel : w1.deleteNode (.node (cs[k]).1) =
        some { w1 with heap := w1.heap.set (cs[k]).1 none } := by
      simp [World.deleteNode, hcell1]
    subst hm
    simp only [SingleLinkedList.EraseAfter,
      if_neg (posAt_ne_null l cs k (Nat.le_of_lt hk)), hnext, if_neg hnn, hnext2, hset, hdel,
      hret]
  · exact Seg.setObj (by simpa [World.decSize, World.setObj] using hrepr) _ _
  · exact Seg.setObj hseg3 _ _
  · simpa [World.decSize, World.setObj] using hlen
  · simp [World.decSize, World.setObj, hsize]
  · intro b hb
    have hb1 : b ∉ (cs.take k).map Prod.fst := by
      intro hin
      obtain ⟨c, hc, hcb⟩ := List.mem_map.mp hin
      exact hb (hcb ▸ List.mem_map_of_mem _ (List.mem_of_mem_take hc))
    have hbk : b ≠ (cs[k]).1 := fun hbk => hb (hbk ▸ List.mem_map_of_mem _ (List.getElem_mem _))
    show World.cell { w1 with heap := w1.heap.set (cs[k]).1 none } b = w.cell b
    rw [hcell2, if_neg hbk, hcells b hb1]
  · intro j hj
    simp [World.decSize, World.setObj, hj, hobjs j hj]

theorem PushFront_repr {w : World α} {l : Nat} {cs : List (Nat × α)} (h : Repr w l cs)
    (v : α) (a : Nat) (hfree : firstFree w.heap = some a) :
    ∃ w2, SingleLinkedList.PushFront w l v = .ok () w2 ∧ Repr w2 l ((a, v) :: cs) ∧
      w2.heap.length = w.heap.length ∧
      (w2.objs l).size_ = ((w.objs l).size_ + 1) % SIZE_MOD ∧
      (∀ b, b ≠ a → w2.cell b = w.cell b) ∧
      (∀ j, j ≠ l → w2.objs j = w.objs j) := by
  have ha_lt := free_lt hfree
  have hne := Seg.ne_of_cell_none h (free_cell hfree)
  have hcell1 : ∀ b, World.cell { w with heap := w.heap.set a (some ⟨v, (w.objs l).head_next⟩) } b
      = if b = a then some ⟨v, (w.objs l).head_next⟩ else w.cell b :=
    fun b => cell_set w _ _ _ ha_lt
  refine ⟨(World.setObj { w with heap := w.heap.set a (some ⟨v, (w.objs l).head_next⟩) } l
    ⟨.node a, (w.objs l).size_⟩).incSize l, ?_, ?_, ?_, ?_, ?_, ?_⟩
  · simp only [SingleLinkedList.PushFront, World.newNode, hfree]
  · have hs : Seg { w with heap := w.heap.set a (some ⟨v, (w.objs l).head_next⟩) }
        (.node a) ((a, v) :: cs) .null := by
      refine ⟨rfl, (w.objs l).head_next, ?_, Seg.frame (fun c hc => ?_) h⟩
      · rw [hcell1, if_pos rfl]
      · rw [hcell1, if_neg (hne c hc)]
    have := Seg.setObj (Seg.setObj hs l ⟨.node a, (w.objs l).size_⟩) l
      ⟨.node a, ((w.objs l).size_ + 1) % SIZE_MOD⟩
    simpa [Repr, World.incSize, World.setObj] using this
  · simp [World.incSize, World.setObj]
  · simp [World.incSize, World.setObj]
  · intro b hb
    show World.cell { w with heap := w.heap.set a (some ⟨v, (w.objs l).head_next⟩) } b = w.cell b
    rw [hcell1, if_neg hb]
  · intro j hj
    simp [World.incSize, World.setObj, hj]

theorem PopFront_repr {w : World α} {l : Nat} {c : Nat × α} {cs : List (Nat × α)}
    (h : Repr w l (c :: cs)) (hsz : (w.objs l).size_ ≠ 0) :
    ∃ w2, SingleLinkedList.PopFront w l = .ok () w2 ∧ Repr w2 l cs ∧
      w2.heap.length = w.heap.length ∧
      (w2.objs l).size_ = ((w.objs l).size_ + (SIZE_MOD - 1)) % SIZE_MOD ∧
      (∀ b, b ≠ c.1 → w2.cell b = w.cell b) ∧
      (∀ j, j ≠ l → w2.objs j = w.objs j) := by
  have hnd := Seg.nodup h
  rw [List.map_cons, List.nodup_cons] at hnd
  obtain ⟨hp, nx, hcell, hrest⟩ := h
  have hlt := cell_lt hcell
  have hcell1 : ∀ b, World.cell { w with heap := w.heap.set c.1 none } b
      = if b = c.1 then none else w.cell b := fun b => cell_set w _ _ _ hlt
  have hnext : w.next (w.objs l).head_next = some nx := by simp [hp, World.next, hcell]
  have hdel : w.deleteNode (w.objs l).head_next = some { w with heap := w.heap.set c.1 none } := by
    simp [hp, World.deleteNode, hcell]
  refine ⟨(World.setObj { w with heap := w.heap.set c.1 none } l
    ⟨nx, (w.objs l).size_⟩).decSize l, ?_, ?_, ?_, ?_, ?_, ?_⟩
  · simp only [SingleLinkedList.PopFront, SingleLinkedList.IsEmpty, hsz, decide_False,
      Bool.not_false, if_true, hnext, hdel]
  · have hs : Seg { w with heap := w.heap.set c.1 none } nx cs .null := by
      refine Seg.frame (fun d hd => ?_) hrest
      rw [hcell1, if_neg]
      intro hdc
      exact hnd.1 (hdc ▸ List.mem_map_of_mem _ hd)
    have := Seg.setObj (Seg.setObj hs l ⟨nx, (w.objs l).size_⟩) l
      ⟨nx, ((w.objs l).size_ + (SIZE_MOD - 1)) % SIZE_MOD⟩
    simpa [Repr, World.decSize, World.setObj] using this
  · simp [World.decSize, World.setObj]
  · simp [World.decSize, World.setObj]
  · intro b hb
    show World.cell { w with heap := w.heap.set c.1 none } b = w.cell b
    rw [hcell1, if_neg hb]
  · intro j hj
    simp [World.decSize, World.setObj, hj]

theorem PopFront_empty (w : World α) (l : Nat) (hsz : (w.objs l).size_ = 0) :
    SingleLinkedList.PopFront w l = .ok () w := by
  simp [SingleLinkedList.PopFront, SingleLinkedList.IsEmpty, hsz]

theorem size_succ_mod {n : Nat} (h : n + 1 < SIZE_MOD) : (n + 1) % SIZE_MOD = n + 1 :=
  Nat.mod_eq_of_lt h

theorem size_pred_mod {n : Nat} (h : n + 1 < SIZE_MOD) :
    (n + 1 + (SIZE_MOD - 1)) % SIZE_MOD = n := by
  have h0 : 0 < SIZE_MOD := by unfold SIZE_MOD; omega
  have : n + 1 + (SIZE_MOD - 1) = n + SIZE_MOD := by omega
  rw [this, Nat.add_mod_right, Nat.mod_eq_of_lt (by omega)]

end Chains

/-! ## Positional insertion and removal -/

section Mutation

variable {α : Type}

open SingleLinkedList

/-- C6: for a list holding `xs` whose cached size is right, and a position `pos`
reached from `before_begin()` by `k ≤ xs.length` increments (the sentinel for `k = 0`,
a live node otherwise), `InsertAfter(pos, v)` with a free cell available returns
normally, the list then holds `xs` with `v` spliced in at index `k`, `GetSize()` grew by
exactly one, and the returned iterator addresses the node right after `pos`, whose value
is `v`. -/
theorem InsertAfter_splices (w : World α) (this : Nat) (xs : List α) (k : Nat)
    (pos : BasicIterator) (v : α)
    (hxs : toList w this = .ok xs) (hsz : GetSize w this = xs.length)
    (hcap : w.heap.length < SIZE_MOD) (hfree : firstFree w.heap ≠ none)
    (hk : k ≤ xs.length) (hpos : advance w k (before_begin w this) = some pos) :
    ∃ it w1, InsertAfter w this pos v = .ok it w1 ∧
      toList w1 this = .ok (xs.take k ++ v :: xs.drop k) ∧
      GetSize w1 this = GetSize w this + 1 ∧
      pos.incr w1 = some it ∧ it.deref w1 = some v := by
  obtain ⟨cs, hr, rfl⟩ := repr_of_toList hxs
  rw [List.length_map] at hk hsz
  rw [advance_before_begin hr k (by omega)] at hpos
  cases hpos
  obtain ⟨a, ha⟩ := Option.ne_none_iff_exists'.mp hfree
  obtain ⟨w2, hins, hr2, hlen, hsize, -, -⟩ := InsertAfter_repr hr k hk v a ha
  have hle := Seg.length_le hr2
  simp only [List.length_append, List.length_take, List.length_cons, List.length_drop,
    min_eq_left hk] at hle
  obtain ⟨m, hs1, hm, nx, hcell, -⟩ := Seg.append.mp hr2
  have hnx := next_posAt_length hs1
  rw [List.length_take, min_eq_left hk, posAt_take this cs k hk] at hnx
  refine ⟨⟨.node a⟩, w2, hins, ?_, ?_, ?_, ?_⟩
  · rw [toList_of_repr hr2]
    simp [List.map_take, List.map_drop]
  · unfold GetSize at hsz ⊢
    rw [hsize, hsz, size_succ_mod (by omega)]
  · simp [BasicIterator.incr, posAt_ne_null this cs k hk, hnx, hm]
  · simp [BasicIterator.deref, World.value, hcell]

/-- Witness of C6: inserting `9` after the first node of `[1, 2, 3]`. -/
theorem InsertAfter_splices_witness :
    ∃ it w1, InsertAfter sampleWorld 0 ⟨.node 0⟩ 9 = .ok it w1 ∧
      toList w1 0 = .ok [1, 9, 2, 3] ∧ GetSize w1 0 = 3 + 1 ∧
      BasicIterator.incr w1 ⟨.node 0⟩ = some it ∧ it.deref w1 = some 9 :=
  InsertAfter_splices sampleWorld 0 [1, 2, 3] 1 ⟨.node 0⟩ 9 (by decide) (by decide)
    (by decide) (by decide) (by decide) (by decide)

/-- C7: for a list holding `xs` whose cached size is right, and a position `pos`
reached from `before_begin()` by `k < xs.length` increments (so that a node follows it),
`EraseAfter(pos)` returns normally, the list then holds `xs` without its element of index
`k`, `GetSize()` shrank by exactly one, and the returned iterator addresses what now
follows `pos`, which is `end()` exactly when the removed node was the last one. -/
theorem EraseAfter_removes (w : World α) (this : Nat) (xs : List α) (k : Nat)
    (pos : BasicIterator)
    (hxs : toList w this = .ok xs) (hsz : GetSize w this = xs.length)
    (hcap : w.heap.length < SIZE_MOD)
    (hk : k < xs.length) (hpos : advance w k (before_begin w this) = some pos) :
    ∃ it w1, EraseAfter w this pos = .ok it w1 ∧
      toList w1 this = .ok (xs.eraseIdx k) ∧
      GetSize w1 this + 1 = GetSize w this ∧
      pos.incr w1 = some it ∧
      (it = end_ w1 this ↔ k + 1 = xs.length) := by
  obtain ⟨cs, hr, rfl⟩ := repr_of_toList hxs
  rw [List.length_map] at hk hsz
  rw [advance_before_begin hr k (by omega)] at hpos
  cases hpos
  obtain ⟨w2, tn, hers, hr2, hs3, hnx, hlen, hsize, -, -⟩ := EraseAfter_repr hr k hk
  have hle := Seg.length_le hr
  refine ⟨⟨tn⟩, w2, hers, ?_, ?_, ?_, ?_⟩
  · rw [toList_of_repr hr2, List.eraseIdx_eq_take_drop_succ, List.eraseIdx_eq_take_drop_succ]
    simp [List.map_take, List.map_drop]
  · unfold GetSize at hsz ⊢
    obtain ⟨n, hn⟩ : ∃ n, cs.length = n + 1 := ⟨cs.length - 1, by omega⟩
    rw [hsize, hsz, hn, size_pred_mod (by omega)]
  · simp [BasicIterator.incr, posAt_ne_null this cs k (Nat.le_of_lt hk), hnx]
  · have := Seg.null_iff hs3
    simp only [end_, BasicIterator.mk.injEq, this, List.drop_eq_nil_iff, List.length_map]
    omega

/-- Witness of C7: erasing after the second node of `[1, 2, 3]` removes the last node. -/
theorem EraseAfter_removes_witness :
    ∃ it w1, EraseAfter sampleWorld 0 ⟨.node 1⟩ = .ok it w1 ∧
      toList w1 0 = .ok [1, 2] ∧ GetSize w1 0 + 1 = 3 ∧
      BasicIterator.incr w1 ⟨.node 1⟩ = some it ∧ (it = end_ w1 0 ↔ 2 + 1 = 3) :=
  EraseAfter_removes sampleWorld 0 [1, 2, 3] 2 ⟨.node 1⟩ (by decide) (by decide)
    (by decide) (by decide) (by decide)

theorem posAt_splice (l : Nat) (cs : List (Nat × α)) (k : Nat) (hk : k ≤ cs.length)
    (c : Nat × α) : posAt l (cs.take k ++ c :: cs.drop k) k = posAt l cs k := by
  cases k with
  | zero => rfl
  | succ j =>
    have hj : j < cs.length := hk
    have h1 : j < (cs.take (j + 1)).length := by simp [List.length_take]; omega
    simp only [posAt, List.getElem?_append_left h1, List.getElem?_take, if_pos (Nat.lt_succ_self j)]

/-- C8: for a list holding `xs` whose cached size is right, and a position `pos`
reached from `before_begin()` by `k ≤ xs.length` increments, `InsertAfter(pos, v)` with a
free cell available followed by `EraseAfter(pos)` both return normally and leave the list
holding `xs` again with the `GetSize()` it had before. -/
theorem InsertAfter_EraseAfter_restores (w : World α) (this : Nat) (xs : List α) (k : Nat)
    (pos : BasicIterator) (v : α)
    (hxs : toList w this = .ok xs) (hsz : GetSize w this = xs.length)
    (hcap : w.heap.length < SIZE_MOD) (hfree : firstFree w.heap ≠ none)
    (hk : k ≤ xs.length) (hpos : advance w k (before_begin w this) = some pos) :
    ∃ it1 w1 it2 w2, InsertAfter w this pos v = .ok it1 w1 ∧
      EraseAfter w1 this pos = .ok it2 w2 ∧
      toList w2 this = .ok xs ∧ GetSize w2 this = GetSize w this := by
  obtain ⟨cs, hr, rfl⟩ := repr_of_toList hxs
  rw [List.length_map] at hk hsz
  rw [advance_before_begin hr k (by omega)] at hpos
  cases hpos
  obtain ⟨a, ha⟩ := Option.ne_none_iff_exists'.mp hfree
  obtain ⟨w1, hins, hr1, hlen1, hsize1, -, -⟩ := InsertAfter_repr hr k hk v a ha
  have hle := Seg.length_le hr1
  have hk1 : k < (cs.take k ++ (a, v) :: cs.drop k).length := by
    simp only [List.length_append, List.length_take, List.length_cons, List.length_drop,
      min_eq_left hk]
    omega
  simp only [List.length_append, List.length_take, List.length_cons, List.length_drop,
    min_eq_left hk] at hle
  obtain ⟨w2, tn, hers, hr2, -, -, hlen2, hsize2, -, -⟩ := EraseAfter_repr hr1 k hk1
  rw [posAt_splice this cs k hk] at hers
  have hback : (cs.take k ++ (a, v) :: cs.drop k).eraseIdx k = cs := by
    rw [List.eraseIdx_append_of_length_le (by simp [List.length_take, hk])]
    simp [List.length_take, min_eq_left hk]
  rw [hback] at hr2
  refine ⟨⟨.node a⟩, w1, ⟨tn⟩, w2, hins, hers, toList_of_repr hr2, ?_⟩
  unfold GetSize at hsz ⊢
  rw [hsize2, hsize1, hsz, size_succ_mod (by omega), size_pred_mod (by omega)]

/-- Witness of C8: inserting `9` after the sentinel of `[1, 2, 3]` and erasing after the
sentinel. -/
theorem InsertAfter_EraseAfter_restores_witness :
    ∃ it1 w1 it2 w2, InsertAfter sampleWorld 0 ⟨.head 0⟩ 9 = .ok it1 w1 ∧
      EraseAfter w1 0 ⟨.head 0⟩ = .ok it2 w2 ∧
      toList w2 0 = .ok [1, 2, 3] ∧ GetSize w2 0 = GetSize sampleWorld 0 :=
  InsertAfter_EraseAfter_restores sampleWorld 0 [1, 2, 3] 0 ⟨.head 0⟩ 9 (by decide) (by decide)
    (by decide) (by decide) (by decide) (by decide)

/-- C9: for a list holding `xs` (empty or not) whose cached size is right,
`PushFront(v)` with a free cell available followed by `PopFront()` both return normally
and leave the list holding `xs` again with the `GetSize()` it had before. -/
theorem PushFront_PopFront_restores (w : World α) (this : Nat) (xs : List α) (v : α)
    (hxs : toList w this = .ok xs) (hsz : GetSize w this = xs.length)
    (hcap : w.heap.length < SIZE_MOD) (hfree : firstFree w.heap ≠ none) :
    ∃ w1 w2, PushFront w this v = .ok () w1 ∧ PopFront w1 this = .ok () w2 ∧
      toList w2 this = .ok xs ∧ GetSize w2 this = GetSize w this := by
  obtain ⟨cs, hr, rfl⟩ := repr_of_toList hxs
  rw [List.length_map] at hsz
  obtain ⟨a, ha⟩ := Option.ne_none_iff_exists'.mp hfree
  obtain ⟨w1, hpush, hr1, hlen1, hsize1, -, -⟩ := PushFront_repr hr v a ha
  have hle := Seg.length_le hr1
  rw [List.length_cons] at hle
  unfold GetSize at hsz
  have hs1 : (w1.objs this).size_ = cs.length + 1 := by
    rw [hsize1, hsz, size_succ_mod (by omega)]
  obtain ⟨w2, hpop, hr2, hlen2, hsize2, -, -⟩ := PopFront_repr hr1 (by omega)
  refine ⟨w1, w2, hpush, hpop, toList_of_repr hr2, ?_⟩
  unfold GetSize
  rw [hsize2, hs1, hsz, size_pred_mod (by omega)]

/-- Witness of C9: pushing `7` onto the empty list and popping it. -/
theorem PushFront_PopFront_restores_witness :
    ∃ w1 w2, PushFront emptyWorld 0 7 = .ok () w1 ∧ PopFront w1 0 = .ok () w2 ∧
      toList w2 0 = .ok [] ∧ GetSize w2 0 = GetSize emptyWorld 0 :=
  PushFront_PopFront_restores emptyWorld 0 [] 7 (by decide) (by decide) (by decide) (by decide)

/-- C10: for a list holding `xs` whose cached size is right, `PopFront()` returns
normally; on an empty list the state is unchanged, and on a non-empty list the list then
holds `xs` without its first element and `GetSize()` shrank by exactly one. -/
theorem PopFront_spec (w : World α) (this : Nat) (xs : List α)
    (hxs : toList w this = .ok xs) (hsz : GetSize w this = xs.length)
    (hcap : w.heap.length < SIZE_MOD) :
    match xs with
    | [] => PopFront w this = .ok () w
    | _ :: rest => ∃ w1, PopFront w this = .ok () w1 ∧ toList w1 this = .ok rest ∧
        GetSize w1 this + 1 = GetSize w this := by
  obtain ⟨cs, hr, rfl⟩ := repr_of_toList hxs
  rw [List.length_map] at hsz
  unfold GetSize at hsz
  cases cs with
  | nil => exact PopFront_empty w this (by simpa using hsz)
  | cons c cs =>
    have hle := Seg.length_le hr
    rw [List.length_cons] at hle hsz
    obtain ⟨w1, hpop, hr1, hlen1, hsize1, -, -⟩ := PopFront_repr hr (by omega)
    refine ⟨w1, hpop, toList_of_repr hr1, ?_⟩
    unfold GetSize
    rw [hsize1, hsz, size_pred_mod (by omega)]

/-- Witness of C10: popping from the empty list and from `[1, 2, 3]`. -/
theorem PopFront_spec_witness :
    PopFront emptyWorld 0 = .ok () emptyWorld ∧
    ∃ w1, PopFront sampleWorld 0 = .ok () w1 ∧ toList w1 0 = .ok [2, 3] ∧
      GetSize w1 0 + 1 = GetSize sampleWorld 0 :=
  ⟨PopFront_spec emptyWorld 0 [] (by decide) (by decide) (by decide),
    PopFront_spec sampleWorld 0 [1, 2, 3] (by decide) (by decide) (by decide)⟩

end Mutation

/-! ## Construction from a source range -/

section Construction

variable {α : Type}

open SingleLinkedList

theorem countP_set_free : ∀ (h : List (Option (Node α))) (a : Nat) (n : Node α),
    firstFree h = some a →
    (h.set a (some n)).countP Option.isNone + 1 = h.countP Option.isNone
  | [], _, _, hf => by simp [firstFree] at hf
  | none :: _, a, _, hf => by
    simp [firstFree] at hf
    subst hf
    simp
  | some _ :: h, a, n, hf => by
    simp only [firstFree, Option.map_eq_some'] at hf
    obtain ⟨b, hb, rfl⟩ := hf
    simpa using countP_set_free h b n hb

theorem countP_set_live : ∀ (h : List (Option (Node α))) (a : Nat) (n n1 : Node α),
    h[a]? = some (some n) →
    (h.set a (some n1)).countP Option.isNone = h.countP Option.isNone
  | [], _, _, _, hf => by simp at hf
  | c :: h, 0, n, n1, hf => by
    simp at hf
    subst hf
    simp
  | c :: h, a + 1, n, n1, hf => by
    have := countP_set_live h a n n1 (by simpa using hf)
    simp [List.countP_cons, this]

theorem setNext_countP {w w2 : World α} {p q : NodePtr} (h : w.setNext p q = some w2) :
    w2.heap.countP Option.isNone = w.heap.countP Option.isNone := by
  cases p with
  | null => simp [World.setNext] at h
  | head j =>
    simp only [World.setNext, Option.some.injEq] at h
    rw [← h]
    rfl
  | node a =>
    cases hc : w.cell a with
    | none => simp [World.setNext, hc] at h
    | some n =>
      simp only [World.setNext, hc, Option.some.injEq] at h
      rw [← h]
      have hlt := cell_lt hc
      have : w.heap[a]? = some (some n) := by
        unfold World.cell at hc
        rw [List.getElem?_eq_getElem hlt] at hc ⊢
        simpa using hc
      exact countP_set_live _ _ _ _ this

theorem ctorLoop_repr (l : Nat) : ∀ (src : List α) (w : World α) (done : List (Nat × α)),
    Repr w l done → src.length ≤ w.heap.countP Option.isNone →
    (w.objs l).size_ + src.length < SIZE_MOD →
    ∃ w1 fresh, ctorLoop l w (posAt l done done.length) src = .ok () w1 ∧
      Repr w1 l (done ++ fresh) ∧ fresh.map Prod.snd = src ∧
      w1.heap.length = w.heap.length ∧
      (w1.objs l).size_ = (w.objs l).size_ + src.length
  | [], w, done, hr, _, _ => ⟨w, [], rfl, by simpa using hr, rfl, rfl, rfl⟩
  | x :: rest, w, done, hr, hfree, hsz => by
    rw [List.length_cons] at hfree hsz
    have hne : firstFree w.heap ≠ none := by
      intro hnone
      have := firstFree_none _ hnone
      omega
    obtain ⟨a, ha⟩ := Option.ne_none_iff_exists'.mp hne
    have ha_lt := free_lt ha
    have hnot := Seg.ne_of_cell_none hr (free_cell ha)
    have hcell1 : ∀ b, World.cell { w with heap := w.heap.set a (some ⟨x, .null⟩) } b
        = if b = a then some ⟨x, .null⟩ else w.cell b := fun b => cell_set w _ _ _ ha_lt
    have hr1 : Seg { w with heap := w.heap.set a (some ⟨x, .null⟩) } (w.objs l).head_next
        done .null := by
      refine Seg.frame (fun c hc => ?_) hr
      rw [hcell1, if_neg (hnot c hc)]
    obtain ⟨w2, hset, hseg, hlen, hcells, hsize, -⟩ :=
      setNext_posAt (l := l) hr1 (Seg.nodup hr1) (.node a)
    have ha_done : a ∉ done.map Prod.fst := by
      intro hin
      obtain ⟨c, hc, hca⟩ := List.mem_map.mp hin
      exact hnot c hc hca
    have hcella : w2.cell a = some ⟨x, .null⟩ := by rw [hcells a ha_done, hcell1, if_pos rfl]
    have hsa : Seg w2 (.node a) [(a, x)] .null := ⟨rfl, .null, hcella, rfl⟩
    have hr2 : Repr (w2.incSize l) l (done ++ [(a, x)]) := by
      have := Seg.append.mpr ⟨_, hseg, hsa⟩
      exact Seg.setObj (by simpa [World.incSize, World.setObj] using this) _ _
    have hnx : w2.next (posAt l done done.length) = some (.node a) := next_posAt_length hseg
    have hcount : (w2.incSize l).heap.countP Option.isNone + 1 = w.heap.countP Option.isNone := by
      have h1 := countP_set_free w.heap a ⟨x, .null⟩ ha
      have h2 := setNext_countP hset
      show w2.heap.countP Option.isNone + 1 = _
      rw [h2]
      exact h1
    have hsize2 : ((w2.incSize l).objs l).size_ = (w.objs l).size_ + 1 := by
      simp only [World.incSize, World.setObj, if_pos, hsize]
      exact size_succ_mod (by omega)
    have hpos2 : posAt l (done ++ [(a, x)]) (done ++ [(a, x)]).length = .node a := by
      simp [posAt]
    obtain ⟨w3, fresh, hloop, hr3, hvals, hlen3, hsize3⟩ :=
      ctorLoop_repr l rest (w2.incSize l) (done ++ [(a, x)]) hr2 (by omega) (by omega)
    rw [hpos2] at hloop
    refine ⟨w3, (a, x) :: fresh, ?_, by simpa using hr3, by simp [hvals], ?_, ?_⟩
    · simp only [ctorLoop, World.newNode, ha, hset, hnx]
      exact hloop
    · rw [hlen3]
      show w2.heap.length = _
      rw [hlen]
      simp
    · rw [hsize3, hsize2, List.length_cons]
      omega

/-- C5: with at least as many free cells as `S` has elements, the range constructor over
a source range holding `S`, and likewise the initializer-list constructor, return
normally; iterating the new list from `begin()` to `end()` yields exactly `S` in order and
`GetSize()` is the length of `S`. -/
theorem ctorRange_spec (w : World α) (this : Nat) (S : List α)
    (hfree : S.length ≤ w.heap.countP Option.isNone) (hcap : w.heap.length < SIZE_MOD) :
    (∃ w1, ctorRange w this S = .ok () w1 ∧ toList w1 this = .ok S ∧
      GetSize w1 this = S.length) ∧
    (∃ w1, ctorInit w this S = .ok () w1 ∧ toList w1 this = .ok S ∧
      GetSize w1 this = S.length) := by
  have hr0 : Repr (w.setObj this ⟨.null, 0⟩) this ([] : List (Nat × α)) := by
    simp [Repr, Seg, World.setObj]
  have hle := List.countP_le_length Option.isNone (l := w.heap)
  obtain ⟨w1, fresh, hloop, hr1, hvals, -, hsize⟩ :=
    ctorLoop_repr this S (w.setObj this ⟨.null, 0⟩) [] hr0 hfree
      (by simp only [World.setObj, if_pos]; omega)
  have key : ∃ w1, ctorRange w this S = .ok () w1 ∧ toList w1 this = .ok S ∧
      GetSize w1 this = S.length := by
    refine ⟨w1, ?_, ?_, ?_⟩
    · have : posAt this ([] : List (Nat × α)) ([] : List (Nat × α)).length = .head this := rfl
      rw [this] at hloop
      simp only [ctorRange, hloop]
    · rw [toList_of_repr hr1]
      simpa using hvals
    · unfold GetSize
      rw [hsize]
      simp [World.setObj]
  exact ⟨key, key⟩

/-- Witness of C5: building a list from `[4, 5]` in a store with two free cells. -/
theorem ctorRange_spec_witness :
    (∃ w1, ctorRange sampleWorld 1 [4, 5] = .ok () w1 ∧ toList w1 1 = .ok [4, 5] ∧
      GetSize w1 1 = 2) ∧
    (∃ w1, ctorInit sampleWorld 1 [4, 5] = .ok () w1 ∧ toList w1 1 = .ok [4, 5] ∧
      GetSize w1 1 = 2) :=
  ctorRange_spec sampleWorld 1 [4, 5] (by decide) (by decide)

end Construction

/-! ## Ordering -/

section Ordering

variable {α : Type}

open SingleLinkedList

theorem std_lexicographical_compare_seg [LT α] [DecidableRel (fun (x y : α) => x < y)]
    {w : World α} : ∀ (n : Nat) {p q : NodePtr} {cs ds : List (Nat × α)},
    Seg w p cs .null → Seg w q ds .null → min cs.length ds.length < n →
    std_lexicographical_compare w n ⟨p⟩ ⟨.null⟩ ⟨q⟩ ⟨.null⟩ =
      .ok (lexCompare (cs.map Prod.snd) (ds.map Prod.snd))
  | 0, _, _, _, _, _, _, hn => by omega
  | n + 1, p, q, [], [], hp, hq, _ => by
    simp only [Seg] at hp hq
    subst hp hq
    simp [std_lexicographical_compare, BasicIterator.ne, lexCompare]
  | n + 1, p, q, [], d :: ds, hp, ⟨hq, _⟩, _ => by
    simp only [Seg] at hp
    subst hp hq
    simp [std_lexicographical_compare, BasicIterator.ne, lexCompare]
  | n + 1, p, q, c :: cs, [], ⟨hp, _⟩, hq, _ => by
    simp only [Seg] at hq
    subst hp hq
    simp [std_lexicographical_compare, BasicIterator.ne, lexCompare]
  | n + 1, p, q, c :: cs, d :: ds, ⟨hp, nx, hc, hcs⟩, ⟨hq, ny, hd, hds⟩, hn => by
    subst hp hq
    have ih := std_lexicographical_compare_seg n hcs hds
      (by simp only [List.length_cons] at hn; omega)
    simp only [std_lexicographical_compare, BasicIterator.ne, BasicIterator.deref,
      BasicIterator.incr, World.value, World.next, hc, hd, List.map_cons, lexCompare]
    by_cases h1 : c.2 < d.2
    · simp [h1]
    · by_cases h2 : d.2 < c.2
      · simp [h1, h2]
      · simp [h1, h2, ih]

theorem lexLess_cons [LinearOrder α] (x y : α) (xs ys : List α) :
    LexLess (x :: xs) (y :: ys) ↔ x < y ∨ (x = y ∧ LexLess xs ys) := by
  constructor
  · rintro (⟨i, hx, hy, htake, hne, hlt⟩ | ⟨hlen, htake⟩)
    · cases i with
      | zero => exact Or.inl (by simpa using hlt)
      | succ j =>
        simp only [List.take_succ_cons, List.cons.injEq] at htake
        simp only [List.length_cons, Nat.add_lt_add_iff_right] at hx hy
        exact Or.inr ⟨htake.1, Or.inl ⟨j, hx, hy, htake.2, by simpa using hne, by simpa using hlt⟩⟩
    · simp only [List.length_cons, Nat.add_lt_add_iff_right, List.take_succ_cons,
        List.cons.injEq] at hlen htake
      exact Or.inr ⟨htake.1.symm, Or.inr ⟨hlen, htake.2⟩⟩
  · rintro (hlt | ⟨rfl, ⟨i, hx, hy, htake, hne, hlt⟩ | ⟨hlen, htake⟩⟩)
    · exact Or.inl ⟨0, by simp, by simp, by simp, by simpa using ne_of_lt hlt, by simpa using hlt⟩
    · exact Or.inl ⟨i + 1, by simpa using hx, by simpa using hy, by simpa using htake,
        by simpa using hne, by simpa using hlt⟩
    · exact Or.inr ⟨by simpa using hlen, by simpa using htake⟩

theorem lexCompare_iff [LinearOrder α] : ∀ (xs ys : List α),
    lexCompare xs ys = true ↔ LexLess xs ys
  | [], [] => by simp [lexCompare, LexLess]
  | [], y :: ys => by simp [lexCompare, LexLess]
  | x :: xs, [] => by simp [lexCompare, LexLess]
  | x :: xs, y :: ys => by
    rw [lexLess_cons, ← lexCompare_iff xs ys]
    simp only [lexCompare]
    rcases lt_trichotomy x y with h | h | h
    · simp [h]
    · subst h
      simp
    · have h1 : ¬ x < y := not_lt_of_gt h
      have h2 : x ≠ y := ne_of_gt h
      simp [h, h1, h2]

theorem lexCompare_self [LinearOrder α] : ∀ (xs : List α), lexCompare xs xs = false
  | [] => rfl
  | x :: xs => by simp [lexCompare, lexCompare_self xs]

/-- C4: for two lists holding `xs` and `ys` over a linearly ordered element type,
`a < b` returns normally, and returns true exactly when at the first index where `xs` and
`ys` differ the element of `xs` is the smaller one, or `xs` is a proper prefix of `ys`;
and `a < a` returns false. -/
theorem operator_lt_lexicographic [LinearOrder α] (w : World α) (a b : Nat) (xs ys : List α)
    (ha : toList w a = .ok xs) (hb : toList w b = .ok ys) :
    (∃ r, operator_lt w a b = .ok r ∧ (r = true ↔ LexLess xs ys)) ∧
    operator_lt w a a = .ok false := by
  obtain ⟨cs, hra, rfl⟩ := repr_of_toList ha
  obtain ⟨ds, hrb, rfl⟩ := repr_of_toList hb
  have hla := Seg.length_le hra
  have hfuel : min cs.length ds.length < w.bound := by
    unfold World.bound
    omega
  have hfuel2 : min cs.length cs.length < w.bound := by
    unfold World.bound
    omega
  refine ⟨⟨_, std_lexicographical_compare_seg _ hra hrb hfuel, lexCompare_iff _ _⟩, ?_⟩
  have := std_lexicographical_compare_seg _ hra hra hfuel2
  rw [lexCompare_self] at this
  exact this

/-- Witness of C4: `[1, 2] < [1, 3]`. -/
theorem operator_lt_lexicographic_witness :
    (∃ r, operator_lt pairWorld 0 1 = .ok r ∧ (r = true ↔ LexLess [1, 2] [1, 3])) ∧
    operator_lt pairWorld 0 0 = .ok false :=
  operator_lt_lexicographic pairWorld 0 1 [1, 2] [1, 3] (by decide) (by decide)

/-- C1, the code at the failing input: with `a` built from `[1]` and `b` from `[1, 2]`,
two lists of different lengths, `a == b` returns true, because the three-iterator
`std::equal` stops at the end of `a` and never looks at the end of `b`. -/
theorem operator_eq_true_on_proper_prefix :
    (twoLists 8 [1] [1, 2]).map (fun w => (toList w 0, toList w 1, operator_eq w 0 1)) =
      some (.ok [1], .ok [1, 2], .ok true) := by
  decide

/-- C2, the code at the failing input: with `a` built from `[2]` and `b` from `[1, 2]`,
`a < b` returns false and yet `a >= b` returns false as well, because `operator>=`
negates `b < a` instead of `a < b`. -/
theorem operator_ge_false_on_greater :
    (twoLists 8 [2] [1, 2]).map (fun w => (toList w 0, toList w 1, operator_lt w 0 1,
      operator_ge w 0 1)) = some (.ok [2], .ok [1, 2], .ok false, .ok false) := by
  decide

/-- C3, the code at the failing input: with `a` built from `[1, 2]` and `b` from `[1]`, a
proper prefix of it, `a > b` does not return true: `operator<=` falls through to
`operator==`, whose traversal runs `b`'s iterator to `end()` and dereferences it. -/
theorem operator_gt_undefined_on_proper_prefix :
    (twoLists 8 [1, 2] [1]).map (fun w => (toList w 0, toList w 1, operator_lt w 0 1,
      operator_eq w 0 1, operator_gt w 0 1)) =
      some (.ok [1, 2], .ok [1], .ok false, .ub, .ub) := by
  decide

end Ordering

/-! ## Defensive no-ops, allocation failure and front insertion -/

section NoOps

variable {α : Type}

open SingleLinkedList

/-- C17: `InsertAfter(end(), v)` returns the iterator that addresses no node and the
state, hence the value sequence and `GetSize()` of the list, is the one before the
call. -/
theorem InsertAfter_end_noop (w : World α) (this : Nat) (v : α) :
    InsertAfter w this (end_ w this) v = .ok (end_ w this) w := by
  simp [InsertAfter, end_]

theorem next_last {w : World α} {l : Nat} {cs : List (Nat × α)} (h : Repr w l cs) :
    w.next (posAt l cs cs.length) = some .null :=
  next_posAt_length h

/-- C16: for a list holding `xs`, `EraseAfter(end())` and `EraseAfter(pos)` with `pos`
the last position of the list (reached from `before_begin()` by `xs.length` increments:
the last real node, or the sentinel when the list is empty) return the iterator that
addresses no node and the state is the one before the call. -/
theorem EraseAfter_noop (w : World α) (this : Nat) (xs : List α) (pos : BasicIterator)
    (hxs : toList w this = .ok xs)
    (hpos : advance w xs.length (before_begin w this) = some pos) :
    EraseAfter w this (end_ w this) = .ok (end_ w this) w ∧
    EraseAfter w this pos = .ok (end_ w this) w := by
  obtain ⟨cs, hr, rfl⟩ := repr_of_toList hxs
  rw [List.length_map, advance_before_begin hr cs.length (by omega)] at hpos
  cases hpos
  constructor
  · simp [EraseAfter, end_]
  · simp only [EraseAfter, if_neg (posAt_ne_null this cs cs.length (Nat.le_refl _)),
      next_last hr, if_true, end_]

/-- Witness of C16: erasing after the last node of `[1, 2, 3]`. -/
theorem EraseAfter_noop_witness :
    EraseAfter sampleWorld 0 (end_ sampleWorld 0) = .ok (end_ sampleWorld 0) sampleWorld ∧
    EraseAfter sampleWorld 0 ⟨.node 2⟩ = .ok (end_ sampleWorld 0) sampleWorld :=
  EraseAfter_noop sampleWorld 0 [1, 2, 3] ⟨.node 2⟩ (by decide) (by decide)

/-- C18: when no cell is free, so that `new` throws, `PushFront(v)` and
`InsertAfter(pos, v)` at a position of the list (reached from `before_begin()` by
`k ≤ xs.length` increments) let `std::bad_alloc` escape and the state the caller sees is
the one before the call, so the list still holds `xs` with the same `GetSize()`. -/
theorem bad_alloc_leaves_list (w : World α) (this : Nat) (xs : List α) (k : Nat)
    (pos : BasicIterator) (v : α)
    (hfull : firstFree w.heap = none)
    (hxs : toList w this = .ok xs)
    (hk : k ≤ xs.length) (hpos : advance w k (before_begin w this) = some pos) :
    PushFront w this v = .bad_alloc w ∧ InsertAfter w this pos v = .bad_alloc w ∧
    toList w this = .ok xs := by
  obtain ⟨cs, hr, rfl⟩ := repr_of_toList hxs
  rw [List.length_map] at hk
  rw [advance_before_begin hr k (by omega)] at hpos
  cases hpos
  obtain ⟨m, h1, -⟩ := Seg.split hr k
  have hnext : w.next (posAt this cs k) = some m := by
    have hn := next_posAt_length h1
    rwa [List.length_take, min_eq_left hk, posAt_take this cs k hk] at hn
  refine ⟨?_, ?_, hxs⟩
  · simp only [PushFront, World.newNode, hfull]
  · simp only [InsertAfter, if_neg (posAt_ne_null this cs k hk), hnext, World.newNode, hfull]

/-- Witness of C18: a store whose four cells are all in use. -/
theorem bad_alloc_leaves_list_witness :
    PushFront pairWorld 0 9 = .bad_alloc pairWorld ∧
    InsertAfter pairWorld 0 ⟨.node 0⟩ 9 = .bad_alloc pairWorld ∧
    toList pairWorld 0 = .ok [1, 2] :=
  bad_alloc_leaves_list pairWorld 0 [1, 2] 1 ⟨.node 0⟩ 9 (by decide) (by decide) (by decide)
    (by decide)

theorem InsertAfter_before_begin (w : World α) (this : Nat) (v : α) :
    InsertAfter w this (before_begin w this) v =
      match PushFront w this v with
      | .ok _ w1 => .ok (begin w1 this) w1
      | .bad_alloc w1 => .bad_alloc w1
      | .ub => .ub
      | .fuel => .fuel := by
  cases hf : firstFree w.heap with
  | none => simp [InsertAfter, PushFront, before_begin, World.next, World.newNode, hf]
  | some a =>
    simp [InsertAfter, PushFront, before_begin, World.next, World.newNode, hf, World.setNext,
      begin, World.incSize, World.setObj]

/-- C15: for a list holding `xs` whose cached size is right, with a free cell available,
`InsertAfter(before_begin(), v)` and `PushFront(v)` return normally in the same state: the
list holds `v` followed by `xs` and `GetSize()` is one more than the length of `xs`. -/
theorem InsertAfter_before_begin_eq_PushFront (w : World α) (this : Nat) (xs : List α) (v : α)
    (hxs : toList w this = .ok xs) (hsz : GetSize w this = xs.length)
    (hcap : w.heap.length < SIZE_MOD) (hfree : firstFree w.heap ≠ none) :
    ∃ it w1, InsertAfter w this (before_begin w this) v = .ok it w1 ∧
      PushFront w this v = .ok () w1 ∧
      toList w1 this = .ok (v :: xs) ∧ GetSize w1 this = xs.length + 1 := by
  obtain ⟨cs, hr, rfl⟩ := repr_of_toList hxs
  rw [List.length_map] at hsz ⊢
  obtain ⟨a, ha⟩ := Option.ne_none_iff_exists'.mp hfree
  obtain ⟨w1, hpush, hr1, hlen1, hsize1, -, -⟩ := PushFront_repr hr v a ha
  have hle := Seg.length_le hr1
  rw [List.length_cons] at hle
  refine ⟨begin w1 this, w1, ?_, hpush, toList_of_repr hr1, ?_⟩
  · rw [InsertAfter_before_begin, hpush]
  · unfold GetSize at hsz ⊢
    rw [hsize1, hsz, size_succ_mod (by omega)]

/-- Witness of C15: inserting `7` at the front of `[1, 2, 3]`. -/
theorem InsertAfter_before_begin_eq_PushFront_witness :
    ∃ it w1, InsertAfter sampleWorld 0 (before_begin sampleWorld 0) 7 = .ok it w1 ∧
      PushFront sampleWorld 0 7 = .ok () w1 ∧
      toList w1 0 = .ok [7, 1, 2, 3] ∧ GetSize w1 0 = 3 + 1 :=
  InsertAfter_before_begin_eq_PushFront sampleWorld 0 [1, 2, 3] 7 (by decide) (by decide)
    (by decide) (by decide)

end NoOps

/-! ## Swap and Clear -/

section SwapClear

variable {α : Type}

theorem collect_heap_congr {w w1 : World α} (hh : w1.heap = w.heap) : ∀ (n : Nat) (p : NodePtr),
    collect w1 n ⟨p⟩ ⟨.null⟩ = collect w n ⟨p⟩ ⟨.null⟩
  | 0, _ => rfl
  | n + 1, p => by
    have hc : ∀ a, w1.cell a = w.cell a := fun a => by simp [World.cell, hh]
    cases p with
    | null => simp [collect, BasicIterator.ne]
    | head l => simp [collect, BasicIterator.ne, BasicIterator.deref, World.value]
    | node a =>
      simp only [collect, BasicIterator.ne, BasicIterator.deref, BasicIterator.incr,
        World.value, World.next, hc]
      cases hca : w.cell a with
      | none => simp
      | some nd => simp [collect_heap_congr hh n nd.next]

theorem toList_congr {w w1 : World α} {a b : Nat} (hh : w1.heap = w.heap)
    (ho : (w1.objs a).head_next = (w.objs b).head_next) :
    SingleLinkedList.toList w1 a = SingleLinkedList.toList w b := by
  unfold SingleLinkedList.toList SingleLinkedList.begin SingleLinkedList.end_ World.bound
  rw [ho, hh]
  exact collect_heap_congr hh _ _

theorem swap_objs_left (w : World α) (a b : Nat) :
    (SLL.swap w a b).objs a = w.objs b := by
  by_cases h : a = b
  · subst h
    simp [SLL.swap, SingleLinkedList.swap, World.setObj]
  · have h1 : b ≠ a := fun e => h e.symm
    simp [SLL.swap, SingleLinkedList.swap, World.setObj, h, h1]

theorem swap_objs_right (w : World α) (a b : Nat) :
    (SLL.swap w a b).objs b = w.objs a := by
  by_cases h : a = b
  · subst h
    simp [SLL.swap, SingleLinkedList.swap, World.setObj]
  · have h1 : b ≠ a := fun e => h e.symm
    simp [SLL.swap, SingleLinkedList.swap, World.setObj, h, h1]

theorem swap_heap (w : World α) (a b : Nat) : (SLL.swap w a b).heap = w.heap := rfl

/-- C13: `swap(a, b)` exchanges the value sequences and the sizes of `a` and `b`, and a
second `swap(a, b)` gives both lists their original sequences and sizes back. -/
theorem swap_exchanges (w : World α) (a b : Nat) :
    (SingleLinkedList.toList (SLL.swap w a b) a = SingleLinkedList.toList w b ∧
      SingleLinkedList.toList (SLL.swap w a b) b = SingleLinkedList.toList w a ∧
      SingleLinkedList.GetSize (SLL.swap w a b) a = SingleLinkedList.GetSize w b ∧
      SingleLinkedList.GetSize (SLL.swap w a b) b = SingleLinkedList.GetSize w a) ∧
    (SingleLinkedList.toList (SLL.swap (SLL.swap w a b) a b) a = SingleLinkedList.toList w a ∧
      SingleLinkedList.toList (SLL.swap (SLL.swap w a b) a b) b = SingleLinkedList.toList w b ∧
      SingleLinkedList.GetSize (SLL.swap (SLL.swap w a b) a b) a = SingleLinkedList.GetSize w a ∧
      SingleLinkedList.GetSize (SLL.swap (SLL.swap w a b) a b) b =
        SingleLinkedList.GetSize w b) := by
  refine ⟨⟨?_, ?_, ?_, ?_⟩, ?_, ?_, ?_, ?_⟩
  · exact toList_congr (swap_heap w a b) (by rw [swap_objs_left])
  · exact toList_congr (swap_heap w a b) (by rw [swap_objs_right])
  · simp [SingleLinkedList.GetSize, swap_objs_left]
  · simp [SingleLinkedList.GetSize, swap_objs_right]
  · exact toList_congr rfl (by rw [swap_objs_left, swap_objs_right])
  · exact toList_congr rfl (by rw [swap_objs_right, swap_objs_left])
  · simp [SingleLinkedList.GetSize, swap_objs_left, swap_objs_right]
  · simp [SingleLinkedList.GetSize, swap_objs_left, swap_objs_right]

theorem ClearLoop_repr (l : Nat) : ∀ (cs : List (Nat × α)) (n : Nat) (w : World α),
    Repr w l cs → cs.length < n →
    ∃ w1, SingleLinkedList.ClearLoop l n w = .ok () w1 ∧ (w1.objs l).head_next = .null ∧
      (w1.objs l).size_ = (w.objs l).size_ ∧ w1.heap.length = w.heap.length ∧
      (∀ b, b ∉ cs.map Prod.fst → w1.cell b = w.cell b) ∧
      (∀ c ∈ cs, w1.cell c.1 = none) ∧
      (∀ j, j ≠ l → w1.objs j = w.objs j)
  | _, 0, _, _, hn => by omega
  | [], n + 1, w, hr, _ => by
    have hnull : (w.objs l).head_next = .null := hr
    exact ⟨w, by simp [SingleLinkedList.ClearLoop, hnull], hnull, rfl, rfl, fun _ _ => rfl,
      fun _ hc => absurd hc (List.not_mem_nil _), fun _ _ => rfl⟩
  | c :: cs, n + 1, w, hr, hn => by
    have hnd := Seg.nodup hr
    rw [List.map_cons, List.nodup_cons] at hnd
    obtain ⟨hp, nx, hcell, hrest⟩ := hr
    have hlt := cell_lt hcell
    have hcell1 : ∀ b, World.cell (World.mk (w.heap.set c.1 none)
        (w.setObj l ⟨nx, (w.objs l).size_⟩).objs) b
        = if b = c.1 then none else w.cell b := fun b => cell_set w _ _ _ hlt
    have hr1 : Repr (World.mk (w.heap.set c.1 none)
        (w.setObj l ⟨nx, (w.objs l).size_⟩).objs) l cs := by
      have hs : Seg (World.mk (w.heap.set c.1 none)
          (w.setObj l ⟨nx, (w.objs l).size_⟩).objs) nx cs .null := by
        refine Seg.frame (fun d hd => ?_) hrest
        rw [hcell1, if_neg]
        intro hdc
        exact hnd.1 (hdc ▸ List.mem_map_of_mem _ hd)
      simpa [Repr, World.setObj] using hs
    obtain ⟨w1, hloop, hnull, hsize, hlen, hfr, hfreed, hobjs⟩ :=
      ClearLoop_repr l cs n _ hr1 (by simpa using hn)
    refine ⟨w1, ?_, hnull, ?_, ?_, ?_, ?_, ?_⟩
    · have hne : (w.objs l).head_next ≠ .null := by simp [hp]
      have hnext : w.next (w.objs l).head_next = some nx := by simp [hp, World.next, hcell]
      have hdel : (w.setObj l { w.objs l with head_next := nx }).deleteNode (w.objs l).head_next
          = some (World.mk (w.heap.set c.1 none)
              (w.setObj l ⟨nx, (w.objs l).size_⟩).objs) := by
        rw [hp]
        simp only [World.deleteNode, cell_setObj, hcell]
        rfl
      simp only [SingleLinkedList.ClearLoop, if_pos hne, hnext, hdel]
      exact hloop
    · rw [hsize]
      simp [World.setObj]
    · rw [hlen]
      simp
    · intro b hb
      simp only [List.map_cons, List.mem_cons, not_or] at hb
      rw [hfr b hb.2, hcell1, if_neg hb.1]
    · intro d hd
      rcases List.mem_cons.mp hd with rfl | hmem
      · rw [hfr _ hnd.1, hcell1, if_pos rfl]
      · exact hfreed d hmem
    · intro j hj
      rw [hobjs j hj]
      simp [World.setObj, hj]

theorem Clear_repr {w : World α} {l : Nat} {cs : List (Nat × α)} (hr : Repr w l cs) :
    ∃ w1, SingleLinkedList.Clear w l = .ok () w1 ∧ Repr w1 l [] ∧ (w1.objs l).size_ = 0 ∧
      w1.heap.length = w.heap.length ∧
      (∀ b, b ∉ cs.map Prod.fst → w1.cell b = w.cell b) ∧
      (∀ c ∈ cs, w1.cell c.1 = none) ∧
      (∀ j, j ≠ l → w1.objs j = w.objs j) := by
  obtain ⟨w1, hloop, hnull, -, hlen, hfr, hfreed, hobjs⟩ :=
    ClearLoop_repr l cs w.bound w hr (Nat.lt_succ_of_le (Seg.length_le hr))
  refine ⟨w1.setObj l { w1.objs l with size_ := 0 }, ?_, ?_, ?_, hlen, hfr, hfreed, ?_⟩
  · simp only [SingleLinkedList.Clear, hloop]
  · simp [Repr, Seg, World.setObj, hnull]
  · simp [World.setObj]
  · intro j hj
    simp [World.setObj, hj, hobjs j hj]

/-- C14: for a list holding any `xs`, `Clear()` returns normally; afterwards `IsEmpty()`
is true, `GetSize()` is `0`, `begin()` equals `end()` and iterating the list yields no
element. -/
theorem Clear_empties (w : World α) (this : Nat) (xs : List α)
    (hxs : SingleLinkedList.toList w this = .ok xs) :
    ∃ w1, SingleLinkedList.Clear w this = .ok () w1 ∧
      SingleLinkedList.IsEmpty w1 this = true ∧ SingleLinkedList.GetSize w1 this = 0 ∧
      SingleLinkedList.begin w1 this = SingleLinkedList.end_ w1 this ∧
      SingleLinkedList.toList w1 this = .ok [] := by
  obtain ⟨cs, hr, -⟩ := repr_of_toList hxs
  obtain ⟨w1, hclear, hr1, hsize, -, -, -, -⟩ := Clear_repr hr
  have hnull : (w1.objs this).head_next = .null := hr1
  refine ⟨w1, hclear, ?_, hsize, ?_, toList_of_repr hr1⟩
  · simp [SingleLinkedList.IsEmpty, hsize]
  · simp [SingleLinkedList.begin, SingleLinkedList.end_, hnull]

/-- Witness of C14: clearing `[1, 2, 3]`. -/
theorem Clear_empties_witness :
    ∃ w1, SingleLinkedList.Clear sampleWorld 0 = .ok () w1 ∧
      SingleLinkedList.IsEmpty w1 0 = true ∧ SingleLinkedList.GetSize w1 0 = 0 ∧
      SingleLinkedList.begin w1 0 = SingleLinkedList.end_ w1 0 ∧
      SingleLinkedList.toList w1 0 = .ok [] :=
  Clear_empties sampleWorld 0 [1, 2, 3] (by decide)

/-- C20, the code at the failing input: with `a` built from `[7, 8, 9]` and `b` from
`[7]`, the traversal of `b` by `a == b` leaves `b`'s range: after the first element
`b`'s iterator is `end()` and `operator*` is applied to it, so `a == b`, `a != b`,
`a <= b` and `a > b` all run into the failed `assert(node_ != nullptr)`. -/
theorem operator_eq_leaves_range :
    (twoLists 8 [7, 8, 9] [7]).map (fun w => (SingleLinkedList.toList w 0,
      SingleLinkedList.toList w 1, advance w 1 (SingleLinkedList.begin w 1),
      BasicIterator.deref w (SingleLinkedList.end_ w 1))) =
      some (.ok [7, 8, 9], .ok [7], some ⟨.null⟩, none) ∧
    (twoLists 8 [7, 8, 9] [7]).map (fun w => (operator_eq w 0 1, operator_ne w 0 1,
      operator_le w 0 1, operator_gt w 0 1)) = some (.ub, .ub, .ub, .ub) := by
  decide

end SwapClear

/-! ## Construction: frame facts and the copy constructor -/

section Copy

variable {α : Type}

open SingleLinkedList

theorem ctorStep_repr {w : World α} {l : Nat} {done : List (Nat × α)} (hr : Repr w l done)
    (x : α) (a : Nat) (ha : firstFree w.heap = some a) :
    ∃ w2, World.setNext { w with heap := w.heap.set a (some ⟨x, .null⟩) }
        (posAt l done done.length) (.node a) = some w2 ∧
      w2.next (posAt l done done.length) = some (.node a) ∧
      Repr (w2.incSize l) l (done ++ [(a, x)]) ∧
      (w2.incSize l).heap.length = w.heap.length ∧
      ((w2.incSize l).objs l).size_ = ((w.objs l).size_ + 1) % SIZE_MOD ∧
      (∀ b, b ≠ a → b ∉ done.map Prod.fst → (w2.incSize l).cell b = w.cell b) ∧
      (∀ j, j ≠ l → (w2.incSize l).objs j = w.objs j) := by
  have ha_lt := free_lt ha
  have hnot := Seg.ne_of_cell_none hr (free_cell ha)
  have hcell1 : ∀ b, World.cell { w with heap := w.heap.set a (some ⟨x, .null⟩) } b
      = if b = a then some ⟨x, .null⟩ else w.cell b := fun b => cell_set w _ _ _ ha_lt
  have hr1 : Seg { w with heap := w.heap.set a (some ⟨x, .null⟩) } (w.objs l).head_next
      done .null := by
    refine Seg.frame (fun c hc => ?_) hr
    rw [hcell1, if_neg (hnot c hc)]
  obtain ⟨w2, hset, hseg, hlen, hcells, hsize, hobjs⟩ :=
    setNext_posAt (l := l) hr1 (Seg.nodup hr1) (.node a)
  have ha_done : a ∉ done.map Prod.fst := by
    intro hin
    obtain ⟨c, hc, hca⟩ := List.mem_map.mp hin
    exact hnot c hc hca
  have hcella : w2.cell a = some ⟨x, .null⟩ := by rw [hcells a ha_done, hcell1, if_pos rfl]
  have hsa : Seg w2 (.node a) [(a, x)] .null := ⟨rfl, .null, hcella, rfl⟩
  refine ⟨w2, hset, next_posAt_length hseg, ?_, ?_, ?_, ?_, ?_⟩
  · have := Seg.append.mpr ⟨_, hseg, hsa⟩
    exact Seg.setObj (by simpa [World.incSize, World.setObj] using this) _ _
  · show w2.heap.length = _
    rw [hlen]
    simp
  · simp only [World.incSize, World.setObj, if_pos, hsize]
  · intro b hba hb
    show w2.cell b = w.cell b
    rw [hcells b hb, hcell1, if_neg hba]
  · intro j hj
    simp [World.incSize, World.setObj, hj, hobjs j hj]

theorem ctorLoop_total (l : Nat) : ∀ (src : List α) (w : World α) (done : List (Nat × α)),
    Repr w l done → (w.objs l).size_ = done.length → w.heap.length < SIZE_MOD →
    ∃ w1 fresh, (ctorLoop l w (posAt l done done.length) src = .ok () w1 ∧
          fresh.map Prod.snd = src ∨
        ctorLoop l w (posAt l done done.length) src = .bad_alloc w1) ∧
      Repr w1 l (done ++ fresh) ∧ (w1.objs l).size_ = (done ++ fresh).length ∧
      w1.heap.length = w.heap.length ∧
      (∀ c ∈ fresh, w.cell c.1 = none) ∧
      (∀ b, w.cell b ≠ none → b ∉ done.map Prod.fst → w1.cell b = w.cell b) ∧
      (∀ j, j ≠ l → w1.objs j = w.objs j)
  | [], w, done, hr, hsz, _ =>
    ⟨w, [], Or.inl ⟨rfl, rfl⟩, by simpa using hr, by simpa using hsz, rfl,
      fun _ hc => absurd hc (List.not_mem_nil _), fun _ _ _ => rfl, fun _ _ => rfl⟩
  | x :: rest, w, done, hr, hsz, hcap => by
    cases hf : firstFree w.heap with
    | none =>
      exact ⟨w, [], Or.inr (by simp only [ctorLoop, World.newNode, hf]), by simpa using hr,
        by simpa using hsz, rfl, fun _ hc => absurd hc (List.not_mem_nil _), fun _ _ _ => rfl,
        fun _ _ => rfl⟩
    | some a =>
      obtain ⟨w2, hset, hnx, hr2, hlen2, hsize2, hfr2, hobjs2⟩ := ctorStep_repr hr x a hf
      have hle := Seg.length_le hr2
      rw [hlen2, List.length_append, List.length_singleton] at hle
      have hsz2 : ((w2.incSize l).objs l).size_ = (done ++ [(a, x)]).length := by
        rw [hsize2, hsz, size_succ_mod (by omega)]
        simp
      have hpos2 : posAt l (done ++ [(a, x)]) (done ++ [(a, x)]).length = .node a := by
        simp [posAt]
      obtain ⟨w3, fresh, hres, hr3, hsz3, hlen3, hfree3, hfr3, hobjs3⟩ :=
        ctorLoop_total l rest (w2.incSize l) (done ++ [(a, x)]) hr2 hsz2 (by rw [hlen2]; exact hcap)
      rw [hpos2] at hres
      have hlive_a : (w2.incSize l).cell a ≠ none := by
        obtain ⟨nx, hc⟩ := Seg.mem_cell hr2 (a, x) (by simp)
        simp [hc]
      refine ⟨w3, (a, x) :: fresh, ?_, by simpa using hr3, by simpa using hsz3, ?_, ?_, ?_, ?_⟩
      · rcases hres with ⟨hok, hv⟩ | hbad
        · left
          refine ⟨?_, by simp [hv]⟩
          simp only [ctorLoop, World.newNode, hf, hset, hnx]
          exact hok
        · right
          simp only [ctorLoop, World.newNode, hf, hset, hnx]
          exact hbad
      · rw [hlen3, hlen2]
      · intro c hc
        rcases List.mem_cons.mp hc with rfl | hmem
        · exact free_cell hf
        · have h3 := hfree3 c hmem
          have hca : c.1 ≠ a := fun e => hlive_a (e ▸ h3)
          have hcd : c.1 ∉ done.map Prod.fst := by
            intro hin
            obtain ⟨d, hd, hdc⟩ := List.mem_map.mp hin
            obtain ⟨nx, hcl⟩ := Seg.mem_cell hr2 d (List.mem_append_left _ hd)
            rw [hdc, h3] at hcl
            cases hcl
          rw [← hfr2 c.1 hca hcd]
          exact h3
      · intro b hb hbd
        have hba : b ≠ a := fun e => hb (e ▸ free_cell hf)
        have h2 := hfr2 b hba hbd
        rw [← h2]
        apply hfr3 b (by rw [h2]; exact hb)
        simp only [List.map_append, List.map_cons, List.map_nil, List.mem_append,
          List.mem_singleton, not_or]
        exact ⟨hbd, hba⟩
      · intro j hj
        rw [hobjs3 j hj, hobjs2 j hj]

theorem ctorLoopIt_eq (l : Nat) : ∀ (rem : List (Nat × α)) (n : Nat) (w : World α)
    (done : List (Nat × α)) (p : NodePtr),
    Repr w l done → Seg w p rem .null → (∀ c ∈ rem, c.1 ∉ done.map Prod.fst) →
    rem.length < n →
    ctorLoopIt l n w (posAt l done done.length) ⟨p⟩ ⟨.null⟩ =
      ctorLoop l w (posAt l done done.length) (rem.map Prod.snd)
  | _, 0, _, _, _, _, _, _, hn => by omega
  | [], n + 1, w, done, p, _, hs, _, _ => by
    simp only [Seg] at hs
    subst hs
    simp [ctorLoopIt, ctorLoop, BasicIterator.ne]
  | c :: rem, n + 1, w, done, p, hr, ⟨hp, nx, hcell, hrest⟩, hdisj, hn => by
    subst hp
    have hne : BasicIterator.ne ⟨.node c.1⟩ ⟨.null⟩ = true := by simp [BasicIterator.ne]
    have hderef : BasicIterator.deref w ⟨.node c.1⟩ = some c.2 := by
      simp [BasicIterator.deref, World.value, hcell]
    cases hf : firstFree w.heap with
    | none =>
      simp only [ctorLoopIt, ctorLoop, hne, if_true, hderef, World.newNode, hf, List.map_cons]
    | some a =>
      obtain ⟨w2, hset, hnx, hr2, hlen2, -, hfr2, -⟩ := ctorStep_repr hr c.2 a hf
      have hsrc : Seg w (.node c.1) (c :: rem) .null := ⟨rfl, nx, hcell, hrest⟩
      have hlive : ∀ d ∈ c :: rem, d.1 ≠ a := Seg.ne_of_cell_none hsrc (free_cell hf)
      have hsame : ∀ d ∈ c :: rem, (w2.incSize l).cell d.1 = w.cell d.1 :=
        fun d hd => hfr2 d.1 (hlive d hd) (hdisj d hd)
      have hincr : BasicIterator.incr (w2.incSize l) ⟨.node c.1⟩ = some ⟨nx⟩ := by
        simp [BasicIterator.incr, World.next, hsame c (List.mem_cons_self _ _), hcell]
      have hrest2 : Seg (w2.incSize l) nx rem .null :=
        Seg.frame (fun d hd => hsame d (List.mem_cons_of_mem _ hd)) hrest
      have hdisj2 : ∀ d ∈ rem, d.1 ∉ (done ++ [(a, c.2)]).map Prod.fst := by
        intro d hd
        simp only [List.map_append, List.map_cons, List.map_nil, List.mem_append,
          List.mem_singleton, not_or]
        exact ⟨hdisj d (List.mem_cons_of_mem _ hd), hlive d (List.mem_cons_of_mem _ hd)⟩
      have ih := ctorLoopIt_eq l rem n (w2.incSize l) (done ++ [(a, c.2)]) nx hr2 hrest2 hdisj2
        (by simpa using hn)
      have hpos2 : posAt l (done ++ [(a, c.2)]) (done ++ [(a, c.2)]).length = .node a := by
        simp [posAt]
      rw [hpos2] at ih
      simp only [ctorLoopIt, ctorLoop, hne, if_true, hderef, World.newNode, hf, hset, hnx,
        hincr, List.map_cons]
      exact ih

theorem ctorCopy_eq_ctorRange {w : World α} {other : Nat} {cs : List (Nat × α)}
    (hr : Repr w other cs) (this : Nat) :
    ctorCopy w this other = ctorRange w this (cs.map Prod.snd) := by
  have hr0 : Repr (w.setObj this ⟨.null, 0⟩) this ([] : List (Nat × α)) := by
    simp [Repr, Seg, World.setObj]
  have hs : Seg (w.setObj this ⟨.null, 0⟩) (w.objs other).head_next cs .null :=
    Seg.setObj hr _ _
  have heq := ctorLoopIt_eq this cs w.bound (w.setObj this ⟨.null, 0⟩) [] _ hr0 hs
    (fun _ _ => by simp) (Nat.lt_succ_of_le (Seg.length_le hr))
  have hpos : posAt this ([] : List (Nat × α)) ([] : List (Nat × α)).length = .head this := rfl
  rw [hpos] at heq
  simp only [ctorCopy, ctorRangeIt, ctorRange, begin, end_, heq]

theorem ctorRange_total (w : World α) (this : Nat) (src : List α)
    (hcap : w.heap.length < SIZE_MOD) :
    ∃ w1 cs, (ctorRange w this src = .ok () w1 ∧ cs.map Prod.snd = src ∨
        ctorRange w this src = .bad_alloc w1 ∧ cs = []) ∧
      Repr w1 this cs ∧ (w1.objs this).size_ = cs.length ∧
      w1.heap.length = w.heap.length ∧
      (∀ c ∈ cs, w.cell c.1 = none) ∧
      (∀ b, w.cell b ≠ none → w1.cell b = w.cell b) ∧
      (∀ j, j ≠ this → w1.objs j = w.objs j) := by
  have hr0 : Repr (w.setObj this ⟨.null, 0⟩) this ([] : List (Nat × α)) := by
    simp [Repr, Seg, World.setObj]
  obtain ⟨w1, fresh, hres, hr1, hsz1, hlen1, hfree1, hfr1, hobjs1⟩ :=
    ctorLoop_total this src (w.setObj this ⟨.null, 0⟩) [] hr0 (by simp [World.setObj]) hcap
  have hpos : posAt this ([] : List (Nat × α)) ([] : List (Nat × α)).length = .head this := rfl
  rw [hpos] at hres
  rw [List.nil_append] at hr1 hsz1
  have hobjs : ∀ j, j ≠ this → w1.objs j = w.objs j := by
    intro j hj
    rw [hobjs1 j hj]
    simp [World.setObj, hj]
  rcases hres with ⟨hok, hv⟩ | hbad
  · refine ⟨w1, fresh, Or.inl ⟨by simp only [ctorRange, hok], hv⟩, hr1, hsz1, hlen1, hfree1,
      fun b hb => hfr1 b hb (by simp), hobjs⟩
  · obtain ⟨w2, hclear, hr2, hsz2, hlen2, hfr2, -, hobjs2⟩ := Clear_repr hr1
    refine ⟨w2, [], Or.inr ⟨by simp only [ctorRange, hbad, hclear], rfl⟩, hr2, by simpa using hsz2,
      by rw [hlen2, hlen1]; rfl, fun _ hc => absurd hc (List.not_mem_nil _), ?_, ?_⟩
    · intro b hb
      have hbf : b ∉ fresh.map Prod.fst := by
        intro hin
        obtain ⟨c, hc, hcb⟩ := List.mem_map.mp hin
        exact hb (hcb ▸ hfree1 c hc)
      rw [hfr2 b hbf]
      exact hfr1 b hb (by simp)
    · intro j hj
      rw [hobjs2 j hj, hobjs j hj]

end Copy

/-! ## Calls on one list leave the other lists alone -/

section Frames

variable {α : Type}

open SingleLinkedList

theorem advance_null (w : World α) : ∀ (k : Nat), advance w (k + 1) ⟨.null⟩ = none
  | _ => by simp [advance, BasicIterator.incr]

theorem advance_add (w : World α) : ∀ (a b : Nat) (it : BasicIterator),
    advance w (a + b) it = (advance w a it).bind (advance w b)
  | 0, b, it => by simp [advance]
  | a + 1, b, it => by
    rw [Nat.add_right_comm]
    simp only [advance]
    cases h : it.incr w with
    | none => simp
    | some it1 => simpa using advance_add w a b it1

theorem posAt_succ_length (l : Nat) (cs : List (Nat × α)) : posAt l cs (cs.length + 1) = .null := by
  simp [posAt]

theorem advance_before_begin_cases {w : World α} {l : Nat} {cs : List (Nat × α)}
    (hr : Repr w l cs) {k : Nat} {pos : BasicIterator}
    (h : advance w k (before_begin w l) = some pos) :
    (k ≤ cs.length ∧ pos = ⟨posAt l cs k⟩) ∨ pos = ⟨.null⟩ := by
  by_cases hk : k ≤ cs.length + 1
  · rw [advance_before_begin hr k hk] at h
    cases h
    by_cases hk2 : k ≤ cs.length
    · exact Or.inl ⟨hk2, rfl⟩
    · have : k = cs.length + 1 := by omega
      subst this
      exact Or.inr (by rw [posAt_succ_length])
  · obtain ⟨j, rfl⟩ : ∃ j, k = (cs.length + 1) + (j + 1) := ⟨k - (cs.length + 1) - 1, by omega⟩
    rw [advance_add, advance_before_begin hr _ (Nat.le_refl _), posAt_succ_length] at h
    simp [advance_null] at h

theorem Updates.refl {w : World α} {l : Nat} {cs : List (Nat × α)} (hr : Repr w l cs)
    (hsz : (w.objs l).size_ = cs.length) : Updates w l cs w cs :=
  ⟨hr, hsz, rfl, fun _ _ _ => rfl, fun _ hc => Or.inl (List.mem_map_of_mem _ hc), fun _ _ => rfl⟩

theorem Updates.other {w w2 : World α} {l : Nat} {cs cs2 : List (Nat × α)}
    (hu : Updates w l cs w2 cs2) {j : Nat} {ds : List (Nat × α)} (hj : j ≠ l)
    (hr : Repr w j ds) (hdisj : ∀ d ∈ ds, d.1 ∉ cs.map Prod.fst) :
    Repr w2 j ds ∧ (w2.objs j).size_ = (w.objs j).size_ := by
  obtain ⟨-, -, -, hfr, -, hobjs⟩ := hu
  constructor
  · unfold Repr
    rw [hobjs j hj]
    refine Seg.frame (fun d hd => ?_) hr
    obtain ⟨nx, hc⟩ := Seg.mem_cell hr d hd
    exact hfr d.1 (by simp [hc]) (hdisj d hd)
  · rw [hobjs j hj]

theorem holds_of_repr {w : World α} {l : Nat} {cs : List (Nat × α)} (hr : Repr w l cs)
    (hsz : (w.objs l).size_ = cs.length) : Holds w l (cs.map Prod.snd) :=
  ⟨toList_of_repr hr, by simpa [GetSize] using hsz⟩

theorem repr_of_holds {w : World α} {l : Nat} {xs : List α} (h : Holds w l xs) :
    ∃ cs, Repr w l cs ∧ cs.map Prod.snd = xs ∧ (w.objs l).size_ = cs.length := by
  obtain ⟨cs, hr, hv⟩ := repr_of_toList h.1
  refine ⟨cs, hr, hv, ?_⟩
  have := h.2
  rw [← hv, List.length_map] at this
  exact this

theorem PushFront_updates {w : World α} {l : Nat} {cs : List (Nat × α)} (hr : Repr w l cs)
    (hsz : (w.objs l).size_ = cs.length) (hcap : w.heap.length < SIZE_MOD) (v : α) :
    ∃ w2 cs2, (PushFront w l v).state = some w2 ∧ Updates w l cs w2 cs2 := by
  cases hf : firstFree w.heap with
  | none =>
    exact ⟨w, cs, by simp only [PushFront, World.newNode, hf, Res.state], Updates.refl hr hsz⟩
  | some a =>
    obtain ⟨w2, hpush, hr2, hlen, hsize, hfr, hobjs⟩ := PushFront_repr hr v a hf
    have hle := Seg.length_le hr2
    rw [hlen, List.length_cons] at hle
    refine ⟨w2, (a, v) :: cs, by simp only [hpush, Res.state], hr2, ?_, hlen, ?_, ?_, hobjs⟩
    · rw [hsize, hsz, size_succ_mod (by omega), List.length_cons]
    · intro b hb _
      exact hfr b (fun e => hb (e ▸ free_cell hf))
    · intro c hc
      rcases List.mem_cons.mp hc with rfl | hmem
      · exact Or.inr (free_cell hf)
      · exact Or.inl (List.mem_map_of_mem _ hmem)

theorem PopFront_updates {w : World α} {l : Nat} {cs : List (Nat × α)} (hr : Repr w l cs)
    (hsz : (w.objs l).size_ = cs.length) (hcap : w.heap.length < SIZE_MOD) :
    ∃ w2 cs2, (PopFront w l).state = some w2 ∧ Updates w l cs w2 cs2 := by
  cases cs with
  | nil =>
    exact ⟨w, [], by simp only [PopFront_empty w l (by simpa using hsz), Res.state],
      Updates.refl hr hsz⟩
  | cons c cs =>
    have hle := Seg.length_le hr
    rw [List.length_cons] at hle hsz
    obtain ⟨w2, hpop, hr2, hlen, hsize, hfr, hobjs⟩ := PopFront_repr hr (by omega)
    refine ⟨w2, cs, by simp only [hpop, Res.state], hr2, ?_, hlen, ?_, ?_, hobjs⟩
    · rw [hsize, hsz, size_pred_mod (by omega)]
    · intro b _ hb
      exact hfr b (fun e => hb (by simp [e]))
    · intro d hd
      exact Or.inl (List.mem_map_of_mem _ (List.mem_cons_of_mem _ hd))

theorem InsertAfter_updates {w : World α} {l : Nat} {cs : List (Nat × α)} (hr : Repr w l cs)
    (hsz : (w.objs l).size_ = cs.length) (hcap : w.heap.length < SIZE_MOD)
    {k : Nat} {pos : BasicIterator} (hpos : advance w k (before_begin w l) = some pos) (v : α) :
    ∃ w2 cs2, (InsertAfter w l pos v).state = some w2 ∧ Updates w l cs w2 cs2 := by
  rcases advance_before_begin_cases hr hpos with ⟨hk, rfl⟩ | rfl
  · cases hf : firstFree w.heap with
    | none =>
      obtain ⟨m, h1, -⟩ := Seg.split hr k
      have hnext : w.next (posAt l cs k) = some m := by
        have hn := next_posAt_length h1
        rwa [List.length_take, min_eq_left hk, posAt_take l cs k hk] at hn
      refine ⟨w, cs, ?_, Updates.refl hr hsz⟩
      simp only [InsertAfter, if_neg (posAt_ne_null l cs k hk), hnext, World.newNode, hf,
        Res.state]
    | some a =>
      obtain ⟨w2, hins, hr2, hlen, hsize, hfr, hobjs⟩ := InsertAfter_repr hr k hk v a hf
      have hle := Seg.length_le hr2
      have hlen2 : (cs.take k ++ (a, v) :: cs.drop k).length = cs.length + 1 := by
        simp only [List.length_append, List.length_take, List.length_cons, List.length_drop,
          min_eq_left hk]
        omega
      rw [hlen, hlen2] at hle
      refine ⟨w2, _, by simp only [hins, Res.state], hr2, ?_, hlen, ?_, ?_, hobjs⟩
      · rw [hsize, hsz, size_succ_mod (by omega), hlen2]
      · intro b hb hbc
        exact hfr b hbc (fun e => hb (e ▸ free_cell hf))
      · intro c hc
        rcases List.mem_append.mp hc with h1 | h2
        · exact Or.inl (List.mem_map_of_mem _ (List.mem_of_mem_take h1))
        · rcases List.mem_cons.mp h2 with rfl | h3
          · exact Or.inr (free_cell hf)
          · exact Or.inl (List.mem_map_of_mem _ (List.mem_of_mem_drop h3))
  · exact ⟨w, cs, by simp [InsertAfter, Res.state], Updates.refl hr hsz⟩

theorem EraseAfter_updates {w : World α} {l : Nat} {cs : List (Nat × α)} (hr : Repr w l cs)
    (hsz : (w.objs l).size_ = cs.length) (hcap : w.heap.length < SIZE_MOD)
    {k : Nat} {pos : BasicIterator} (hpos : advance w k (before_begin w l) = some pos) :
    ∃ w2 cs2, (EraseAfter w l pos).state = some w2 ∧ Updates w l cs w2 cs2 := by
  rcases advance_before_begin_cases hr hpos with ⟨hk, rfl⟩ | rfl
  · by_cases hlast : k = cs.length
    · subst hlast
      refine ⟨w, cs, ?_, Updates.refl hr hsz⟩
      simp only [EraseAfter, if_neg (posAt_ne_null l cs cs.length (Nat.le_refl _)),
        next_last hr, if_true, Res.state]
    · have hk2 : k < cs.length := by omega
      obtain ⟨w2, tn, hers, hr2, -, -, hlen, hsize, hfr, hobjs⟩ := EraseAfter_repr hr k hk2
      have hle := Seg.length_le hr
      obtain ⟨n, hn⟩ : ∃ n, cs.length = n + 1 := ⟨cs.length - 1, by omega⟩
      refine ⟨w2, _, by simp only [hers, Res.state], hr2, ?_, hlen, ?_, ?_, hobjs⟩
      · rw [hsize, hsz, hn, size_pred_mod (by omega), List.length_eraseIdx, if_pos hk2, hn]
        rfl
      · intro b _ hbc
        exact hfr b hbc
      · intro c hc
        exact Or.inl (List.mem_map_of_mem _ (List.mem_of_mem_eraseIdx hc))
  · exact ⟨w, cs, by simp [EraseAfter, Res.state], Updates.refl hr hsz⟩

theorem Clear_updates {w : World α} {l : Nat} {cs : List (Nat × α)} (hr : Repr w l cs) :
    ∃ w2, Clear w l = .ok () w2 ∧ Updates w l cs w2 [] := by
  obtain ⟨w2, hclear, hr2, hsize, hlen, hfr, -, hobjs⟩ := Clear_repr hr
  exact ⟨w2, hclear, hr2, by simpa using hsize, hlen, fun b _ hb => hfr b hb,
    fun _ hc => absurd hc (List.not_mem_nil _), hobjs⟩

theorem ctorDefault_updates (w : World α) (l : Nat) (cs : List (Nat × α)) :
    Updates w l cs (ctorDefault w l) [] := by
  refine ⟨?_, ?_, rfl, fun _ _ _ => rfl, fun _ hc => absurd hc (List.not_mem_nil _), ?_⟩
  · simp [Repr, Seg, ctorDefault, World.setObj]
  · simp [ctorDefault, World.setObj]
  · intro j hj
    simp [ctorDefault, World.setObj, hj]

theorem ctorRange_updates (w : World α) (l : Nat) (cs : List (Nat × α)) (src : List α)
    (hcap : w.heap.length < SIZE_MOD) :
    ∃ w2 cs2, (ctorRange w l src).state = some w2 ∧ Updates w l cs w2 cs2 ∧
      (ctorRange w l src = .ok () w2 ∧ cs2.map Prod.snd = src ∨
        ctorRange w l src = .bad_alloc w2 ∧ cs2 = []) := by
  obtain ⟨w2, cs2, hres, hr2, hsz2, hlen2, hfree2, hfr2, hobjs2⟩ := ctorRange_total w l src hcap
  refine ⟨w2, cs2, ?_, ⟨hr2, hsz2, hlen2, fun b hb _ => hfr2 b hb,
    fun c hc => Or.inr (hfree2 c hc), hobjs2⟩, hres⟩
  rcases hres with ⟨h, -⟩ | ⟨h, -⟩ <;> simp only [h, Res.state]

end Frames

/-! ## Copy construction -/

section CopyConstruction

variable {α : Type}

open SingleLinkedList

theorem std_equal_seg_same [BEq α] [LawfulBEq α] {w : World α} :
    ∀ (n : Nat) {p q : NodePtr} {cs ds : List (Nat × α)},
    Seg w p cs .null → Seg w q ds .null → cs.map Prod.snd = ds.map Prod.snd → cs.length < n →
    std_equal w n ⟨p⟩ ⟨.null⟩ ⟨q⟩ = .ok true
  | 0, _, _, _, _, _, _, _, hn => by omega
  | n + 1, p, q, [], _, hp, _, _, _ => by
    simp only [Seg] at hp
    subst hp
    simp [std_equal, BasicIterator.ne]
  | n + 1, p, q, c :: cs, [], _, _, hv, _ => by simp at hv
  | n + 1, p, q, c :: cs, d :: ds, ⟨hp, nx, hc, hcs⟩, ⟨hq, ny, hd, hds⟩, hv, hn => by
    subst hp hq
    simp only [List.map_cons, List.cons.injEq] at hv
    have ih := std_equal_seg_same n hcs hds hv.2 (by simpa using hn)
    simp [std_equal, BasicIterator.ne, BasicIterator.deref, BasicIterator.incr, World.value,
      World.next, hc, hd, hv.1, ih]

theorem ctorRange_ok {w : World α} (this : Nat) (src : List α)
    (hfree : src.length ≤ w.heap.countP Option.isNone) (hcap : w.heap.length < SIZE_MOD) :
    ∃ w1, ctorRange w this src = .ok () w1 := by
  have hr0 : Repr (w.setObj this ⟨.null, 0⟩) this ([] : List (Nat × α)) := by
    simp [Repr, Seg, World.setObj]
  have hle := List.countP_le_length Option.isNone (l := w.heap)
  obtain ⟨w1, fresh, hloop, -⟩ :=
    ctorLoop_repr this src (w.setObj this ⟨.null, 0⟩) [] hr0 hfree
      (by simp only [World.setObj, if_pos]; omega)
  have hpos : posAt this ([] : List (Nat × α)) ([] : List (Nat × α)).length = .head this := rfl
  rw [hpos] at hloop
  exact ⟨w1, by simp only [ctorRange, hloop]⟩

/-- C11: for a list `L` holding `xs` and another list object `C`, with enough free cells
the copy constructor builds `C` from `L` and returns normally; then `C` and `L` both hold
`xs` with `GetSize()` the length of `xs`, `C == L` is true, and whatever `PushFront`,
`PopFront`, `InsertAfter`, `EraseAfter` (at any position of `C`, `end()` included) or
`Clear` then does to `C`, the call ends and `L` still holds `xs` with the same size. -/
theorem ctorCopy_independent [BEq α] [LawfulBEq α] (w : World α) (L C : Nat) (xs : List α)
    (hne : C ≠ L) (hL : Holds w L xs) (hcap : w.heap.length < SIZE_MOD)
    (hfree : xs.length ≤ w.heap.countP Option.isNone) :
    ∃ w1, ctorCopy w C L = .ok () w1 ∧ Holds w1 C xs ∧ Holds w1 L xs ∧
      operator_eq w1 C L = .ok true ∧
      (∀ v, ∃ w2, (PushFront w1 C v).state = some w2 ∧ Holds w2 L xs) ∧
      (∃ w2, (PopFront w1 C).state = some w2 ∧ Holds w2 L xs) ∧
      (∀ k pos v, advance w1 k (before_begin w1 C) = some pos →
        ∃ w2, (InsertAfter w1 C pos v).state = some w2 ∧ Holds w2 L xs) ∧
      (∀ k pos, advance w1 k (before_begin w1 C) = some pos →
        ∃ w2, (EraseAfter w1 C pos).state = some w2 ∧ Holds w2 L xs) ∧
      (∃ w2, (Clear w1 C).state = some w2 ∧ Holds w2 L xs) := by
  obtain ⟨ds, hrL, rfl, hszL⟩ := repr_of_holds hL
  rw [List.length_map] at hfree
  obtain ⟨w1, hok⟩ := ctorRange_ok C (ds.map Prod.snd) (by simpa using hfree) hcap
  obtain ⟨w1', cs, hres, hrC, hszC, hlen, hfresh, hfr, hobjs⟩ :=
    ctorRange_total w C (ds.map Prod.snd) hcap
  rcases hres with ⟨hok', hv⟩ | ⟨hbad, -⟩
  swap
  · rw [hok] at hbad
    cases hbad
  rw [hok] at hok'
  cases hok'
  have hlive : ∀ d ∈ ds, w.cell d.1 ≠ none := by
    intro d hd
    obtain ⟨nx, hc⟩ := Seg.mem_cell hrL d hd
    simp [hc]
  have hrL1 : Repr w1 L ds := by
    unfold Repr
    rw [hobjs L (fun e => hne e.symm)]
    exact Seg.frame (fun d hd => hfr d.1 (hlive d hd)) hrL
  have hszL1 : (w1.objs L).size_ = ds.length := by rw [hobjs L (fun e => hne e.symm), hszL]
  have hdisj : ∀ d ∈ ds, d.1 ∉ cs.map Prod.fst := by
    intro d hd hin
    obtain ⟨c, hc, hcd⟩ := List.mem_map.mp hin
    exact hlive d hd (hcd ▸ hfresh c hc)
  have hcap1 : w1.heap.length < SIZE_MOD := by rw [hlen]; exact hcap
  have keep : ∀ {w2 : World α} {cs2 : List (Nat × α)}, Updates w1 C cs w2 cs2 →
      Holds w2 L (ds.map Prod.snd) := by
    intro w2 cs2 hu
    obtain ⟨h1, h2⟩ := Updates.other hu (fun e => hne e.symm) hrL1 hdisj
    exact holds_of_repr h1 (by rw [h2, hszL1])
  refine ⟨w1, (ctorCopy_eq_ctorRange hrL C).trans hok, ?_, holds_of_repr hrL1 hszL1, ?_, ?_, ?_,
    ?_, ?_, ?_⟩
  · rw [← hv]
    exact holds_of_repr hrC hszC
  · exact std_equal_seg_same _ hrC hrL1 hv (Nat.lt_succ_of_le (Seg.length_le hrC))
  · intro v
    obtain ⟨w2, cs2, hst, hu⟩ := PushFront_updates hrC hszC hcap1 v
    exact ⟨w2, hst, keep hu⟩
  · obtain ⟨w2, cs2, hst, hu⟩ := PopFront_updates hrC hszC hcap1
    exact ⟨w2, hst, keep hu⟩
  · intro k pos v hpos
    obtain ⟨w2, cs2, hst, hu⟩ := InsertAfter_updates hrC hszC hcap1 hpos v
    exact ⟨w2, hst, keep hu⟩
  · intro k pos hpos
    obtain ⟨w2, cs2, hst, hu⟩ := EraseAfter_updates hrC hszC hcap1 hpos
    exact ⟨w2, hst, keep hu⟩
  · obtain ⟨w2, hclear, hu⟩ := Clear_updates hrC
    exact ⟨w2, by simp only [hclear, Res.state], keep hu⟩

/-- Witness of C11: copying the list `[1, 2]` into a third list object and clearing the
copy. -/
theorem ctorCopy_independent_witness :
    ∃ w1, ctorCopy builtWorld 2 0 = .ok () w1 ∧ Holds w1 2 [1, 2] ∧ Holds w1 0 [1, 2] ∧
      operator_eq w1 2 0 = .ok true ∧
      ∃ w2, (Clear w1 2).state = some w2 ∧ Holds w2 0 [1, 2] := by
  obtain ⟨w1, h1, h2, h3, h4, -, -, -, -, h5⟩ :=
    ctorCopy_independent builtWorld 0 2 [1, 2] (by decide) ⟨by decide, by decide⟩ (by decide)
      (by decide)
  exact ⟨w1, h1, h2, h3, h4, h5⟩

end CopyConstruction

/-! ## The invariant of reachable states -/

section Invariant

variable {α : Type}

open SingleLinkedList

theorem InvOwn.empty (cap : Nat) (hcap : cap < SIZE_MOD) :
    InvOwn (World.empty α cap) (fun _ => []) := by
  refine ⟨by simpa [World.empty] using hcap, fun l => ⟨?_, ?_⟩, fun _ _ _ c hc => ?_⟩
  · simp [Repr, Seg, World.empty]
  · simp [World.empty]
  · exact absurd hc (List.not_mem_nil _)

theorem InvOwn.live {w : World α} {own : Nat → List (Nat × α)} (h : InvOwn w own)
    {j : Nat} {c : Nat × α} (hc : c ∈ own j) : w.cell c.1 ≠ none := by
  obtain ⟨nx, hcell⟩ := Seg.mem_cell (h.2.1 j).1 c hc
  simp [hcell]

theorem InvOwn.update {w w2 : World α} {own : Nat → List (Nat × α)} {l : Nat}
    {cs2 : List (Nat × α)} (h : InvOwn w own) (hu : Updates w l (own l) w2 cs2) :
    InvOwn w2 (setOwn own l cs2) := by
  obtain ⟨hcap, hall, hdisj⟩ := h
  have hlive : ∀ {j : Nat} {c : Nat × α}, c ∈ own j → w.cell c.1 ≠ none :=
    fun hc => InvOwn.live ⟨hcap, hall, hdisj⟩ hc
  have hnew : ∀ c ∈ cs2, ∀ j, j ≠ l → c.1 ∉ (own j).map Prod.fst := by
    intro c hc j hj hin
    obtain ⟨d, hd, hdc⟩ := List.mem_map.mp hin
    rcases hu.2.2.2.2.1 c hc with hold | hfree
    · exact hdisj j l hj d hd (hdc ▸ hold)
    · exact hlive hd (hdc ▸ hfree)
  refine ⟨by rw [hu.2.2.1]; exact hcap, fun j => ?_, fun i j hij c hc => ?_⟩
  · by_cases hj : j = l
    · subst hj
      simpa [setOwn] using And.intro hu.1 hu.2.1
    · obtain ⟨h1, h2⟩ := Updates.other hu hj (hall j).1 (hdisj j l hj)
      simpa [setOwn, hj] using And.intro h1 (h2.trans (hall j).2)
  · by_cases hi : i = l
    · subst hi
      have hj : j ≠ i := fun e => hij e.symm
      simp only [setOwn, if_pos, if_neg hj] at hc ⊢
      exact hnew c hc j hj
    · by_cases hj : j = l
      · subst hj
        simp only [setOwn, if_pos, if_neg hi] at hc ⊢
        intro hin
        obtain ⟨d, hd, hdc⟩ := List.mem_map.mp hin
        exact hnew d hd i hi (hdc ▸ List.mem_map_of_mem _ hc)
      · simp only [setOwn, if_neg hi, if_neg hj] at hc ⊢
        exact hdisj i j hij c hc

theorem swap_objs_other (w : World α) (a b j : Nat) (ha : j ≠ a) (hb : j ≠ b) :
    (SLL.swap w a b).objs j = w.objs j := by
  simp [SLL.swap, SingleLinkedList.swap, World.setObj, ha, hb]

theorem InvOwn.swap {w : World α} {own : Nat → List (Nat × α)} (h : InvOwn w own) (a b : Nat) :
    InvOwn (SLL.swap w a b) (swapOwn own a b) := by
  obtain ⟨hcap, hall, hdisj⟩ := h
  have hobj : ∀ j, (SLL.swap w a b).objs j =
      w.objs (if j = a then b else if j = b then a else j) := by
    intro j
    by_cases ha : j = a
    · subst ha
      simp [swap_objs_left]
    · by_cases hb : j = b
      · subst hb
        simp [ha, swap_objs_right]
      · simp [ha, hb, swap_objs_other w a b j ha hb]
  have hown : ∀ j, swapOwn own a b j = own (if j = a then b else if j = b then a else j) := by
    intro j
    unfold swapOwn
    split_ifs <;> rfl
  refine ⟨hcap, fun j => ?_, fun i j hij c hc => ?_⟩
  · rw [hown j]
    constructor
    · unfold Repr
      rw [hobj j]
      have hsame : ∀ c ∈ own (if j = a then b else if j = b then a else j),
          (SLL.swap w a b).cell c.1 = w.cell c.1 := fun _ _ => rfl
      exact Seg.frame hsame (hall _).1
    · rw [hobj j]
      exact (hall _).2
  · rw [hown i] at hc
    rw [hown j]
    refine hdisj _ _ ?_ c hc
    split_ifs <;> omega

theorem assign_inv {w : World α} {own : Nat → List (Nat × α)} (h : InvOwn w own)
    (this rhs t : Nat) (ht1 : t ≠ this) (ht2 : t ≠ rhs) :
    ∃ w4 own4, InvOwn w4 own4 ∧ own4 rhs = own rhs ∧
      ((assign w this rhs t = .ok () w4 ∧
          (own4 this).map Prod.snd = (own rhs).map Prod.snd ∧ (this = rhs → w4 = w)) ∨
        (assign w this rhs t = .bad_alloc w4 ∧ own4 this = own this ∧
          ¬ (own rhs).length ≤ w.heap.countP Option.isNone)) := by
  by_cases hh : (w.objs this).head_next ≠ (w.objs rhs).head_next
  swap
  · rw [not_not] at hh
    refine ⟨w, own, h, rfl, Or.inl ⟨by simp only [assign, hh, ne_eq, not_true_eq_false, if_false],
      ?_, fun _ => rfl⟩⟩
    have h1 := (h.2.1 this).1
    have h2 := (h.2.1 rhs).1
    unfold Repr at h1 h2
    rw [hh] at h1
    rw [Seg.det h1 h2]
  · have hne : this ≠ rhs := fun e => hh (by rw [e])
    have hne2 : rhs ≠ this := fun e => hne e.symm
    have ht2s : rhs ≠ t := fun e => ht2 e.symm
    have ht1s : this ≠ t := fun e => ht1 e.symm
    have hcopy : ctorRangeIt w t (begin w rhs) (end_ w rhs) =
        ctorRange w t ((own rhs).map Prod.snd) := ctorCopy_eq_ctorRange (h.2.1 rhs).1 t
    obtain ⟨w1, cs, -, hu, hres⟩ := ctorRange_updates w t (own t) ((own rhs).map Prod.snd) h.1
    have h1 := InvOwn.update h hu
    rcases hres with ⟨hok, hv⟩ | ⟨hbad, rfl⟩
    · have h2 := InvOwn.swap h1 this t
      have hown2_this : swapOwn (setOwn own t cs) this t this = cs := by
        simp [swapOwn, setOwn]
      have hown2_rhs : swapOwn (setOwn own t cs) this t rhs = own rhs := by
        simp [swapOwn, setOwn, hne2, ht2s]
      have hlen_cs : cs.length = (own rhs).length := by
        have := congrArg List.length hv
        simpa using this
      have hu3 : Updates (SLL.swap w1 this t) this (swapOwn (setOwn own t cs) this t this)
          (World.setObj (SLL.swap w1 this t) this
            { (SLL.swap w1 this t).objs this with
              size_ := ((SLL.swap w1 this t).objs rhs).size_ }) cs := by
        refine ⟨?_, ?_, rfl, fun _ _ _ => rfl, fun c hc => Or.inl ?_, fun j hj => ?_⟩
        · have hr := (h2.2.1 this).1
          rw [hown2_this] at hr
          have := Seg.setObj hr this { (SLL.swap w1 this t).objs this with
              size_ := ((SLL.swap w1 this t).objs rhs).size_ }
          simpa [Repr, World.setObj] using this
        · have hs := (h2.2.1 rhs).2
          rw [hown2_rhs] at hs
          simp [World.setObj, hs, hlen_cs]
        · rw [hown2_this]
          exact List.mem_map_of_mem _ hc
        · simp [World.setObj, hj]
      have h3 := InvOwn.update h2 hu3
      have hr3t := (h3.2.1 t).1
      obtain ⟨w4, hclear, hu4⟩ := Clear_updates hr3t
      have h4 := InvOwn.update h3 hu4
      refine ⟨w4, _, h4, ?_, Or.inl ⟨?_, ?_, fun e => absurd e hne⟩⟩
      · simp [setOwn, swapOwn, hne2, ht2s]
      · simp only [assign, if_pos hh, hcopy, hok, dtor]
        exact hclear
      · simp [setOwn, swapOwn, ht1s, hv]
    · refine ⟨w1, _, h1, by simp [setOwn, ht2s], Or.inr ⟨?_, by simp [setOwn, ht1s], ?_⟩⟩
      · simp only [assign, if_pos hh, hcopy, hbad]
      · intro hfree
        obtain ⟨w5, hok⟩ := ctorRange_ok t ((own rhs).map Prod.snd) (by simpa using hfree) h.1
        rw [hok] at hbad
        cases hbad

theorem run_inv {w w1 : World α} {own : Nat → List (Nat × α)} (h : InvOwn w own)
    (c : Call α) (hrun : run w c = some w1) : ∃ own1, InvOwn w1 own1 := by
  have hall := h.2.1
  cases c with
  | ctorDefault this =>
    simp only [run, Option.some.injEq] at hrun
    subst hrun
    exact ⟨_, InvOwn.update h (ctorDefault_updates w this (own this))⟩
  | ctorRange this src =>
    obtain ⟨w2, cs2, hst, hu, -⟩ := ctorRange_updates w this (own this) src h.1
    simp only [run, hst, Option.some.injEq] at hrun
    subst hrun
    exact ⟨_, InvOwn.update h hu⟩
  | ctorInit this values =>
    obtain ⟨w2, cs2, hst, hu, -⟩ := ctorRange_updates w this (own this) values h.1
    simp only [run, ctorInit, hst, Option.some.injEq] at hrun
    subst hrun
    exact ⟨_, InvOwn.update h hu⟩
  | ctorCopy this other =>
    obtain ⟨w2, cs2, hst, hu, -⟩ :=
      ctorRange_updates w this (own this) ((own other).map Prod.snd) h.1
    simp only [run, ctorCopy_eq_ctorRange (hall other).1 this, hst, Option.some.injEq] at hrun
    subst hrun
    exact ⟨_, InvOwn.update h hu⟩
  | PushFront this value =>
    obtain ⟨w2, cs2, hst, hu⟩ := PushFront_updates (hall this).1 (hall this).2 h.1 value
    simp only [run, hst, Option.some.injEq] at hrun
    subst hrun
    exact ⟨_, InvOwn.update h hu⟩
  | PopFront this =>
    obtain ⟨w2, cs2, hst, hu⟩ := PopFront_updates (hall this).1 (hall this).2 h.1
    simp only [run, hst, Option.some.injEq] at hrun
    subst hrun
    exact ⟨_, InvOwn.update h hu⟩
  | InsertAfter this k value =>
    cases hadv : advance w k (before_begin w this) with
    | none => simp [run, hadv] at hrun
    | some pos =>
      obtain ⟨w2, cs2, hst, hu⟩ :=
        InsertAfter_updates (hall this).1 (hall this).2 h.1 hadv value
      simp only [run, hadv, hst, Option.some.injEq] at hrun
      subst hrun
      exact ⟨_, InvOwn.update h hu⟩
  | EraseAfter this k =>
    cases hadv : advance w k (before_begin w this) with
    | none => simp [run, hadv] at hrun
    | some pos =>
      obtain ⟨w2, cs2, hst, hu⟩ := EraseAfter_updates (hall this).1 (hall this).2 h.1 hadv
      simp only [run, hadv, hst, Option.some.injEq] at hrun
      subst hrun
      exact ⟨_, InvOwn.update h hu⟩
  | Clear this =>
    obtain ⟨w2, hclear, hu⟩ := Clear_updates (hall this).1
    simp only [run, hclear, Res.state, Option.some.injEq] at hrun
    subst hrun
    exact ⟨_, InvOwn.update h hu⟩
  | swap lhs rhs =>
    simp only [run, Option.some.injEq] at hrun
    subst hrun
    exact ⟨_, InvOwn.swap h lhs rhs⟩
  | assign this rhs t =>
    by_cases ht : t = this ∨ t = rhs
    · simp [run, ht] at hrun
    · rw [not_or] at ht
      obtain ⟨w4, own4, h4, -, hres⟩ := assign_inv h this rhs t ht.1 ht.2
      have hst : (assign w this rhs t).state = some w4 := by
        rcases hres with ⟨hok, -⟩ | ⟨hbad, -⟩
        · simp only [hok, Res.state]
        · simp only [hbad, Res.state]
      simp only [run, ht.1, ht.2, or_self, if_false, hst, Option.some.injEq] at hrun
      subst hrun
      exact ⟨own4, h4⟩

theorem runAll_inv : ∀ (calls : List (Call α)) {w w1 : World α} {own : Nat → List (Nat × α)},
    InvOwn w own → runAll w calls = some w1 → ∃ own1, InvOwn w1 own1
  | [], w, w1, own, h, hrun => by
    simp only [runAll, Option.some.injEq] at hrun
    subst hrun
    exact ⟨own, h⟩
  | c :: cs, w, w1, own, h, hrun => by
    cases hc : run w c with
    | none => simp [runAll, hc] at hrun
    | some w2 =>
      simp only [runAll, hc] at hrun
      obtain ⟨own2, h2⟩ := run_inv h c hc
      exact runAll_inv cs h2 hrun

theorem reachable_inv {w : World α} (hw : Reachable w) : ∃ own, InvOwn w own := by
  obtain ⟨cap, calls, hcap, hrun⟩ := hw
  exact runAll_inv calls (InvOwn.empty cap hcap) hrun

theorem countFrom_seg {w : World α} : ∀ (n : Nat) {p : NodePtr} {cs : List (Nat × α)},
    Seg w p cs .null → cs.length < n → countFrom w n p = .ok cs.length
  | 0, _, _, _, hn => by omega
  | n + 1, p, [], h, _ => by
    simp only [Seg] at h
    subst h
    simp [countFrom]
  | n + 1, p, c :: cs, ⟨hp, nx, hcell, hrest⟩, hn => by
    subst hp
    have ih := countFrom_seg n hrest (by simpa using hn)
    simp [countFrom, World.next, hcell, ih]

/-- C19: in every state reached from a store of default-constructed lists by calls of the
constructors, `PushFront`, `PopFront`, `InsertAfter`, `EraseAfter` (at positions reached
from `before_begin()` by increments), `Clear`, `swap` and `operator=`, whether they return
or throw, following the links from the sentinel of any list ends and meets exactly
`GetSize()` real nodes, and `IsEmpty()` is true exactly when `begin()` equals `end()`. -/
theorem size_matches_chain (w : World α) (hw : Reachable w) (l : Nat) :
    countNodes w l = .ok (GetSize w l) ∧ (IsEmpty w l = true ↔ begin w l = end_ w l) := by
  obtain ⟨own, h⟩ := reachable_inv hw
  obtain ⟨hr, hsz⟩ := h.2.1 l
  constructor
  · have := countFrom_seg w.bound hr (Nat.lt_succ_of_le (Seg.length_le hr))
    simp only [countNodes, World.next, GetSize, hsz]
    exact this
  · have hnull := Seg.null_iff hr
    simp only [SingleLinkedList.IsEmpty, decide_eq_true_eq, hsz, begin, end_,
      BasicIterator.mk.injEq, hnull, List.length_eq_zero]

/-- Witness of C19: list `3` of a state reached by twelve calls. -/
theorem size_matches_chain_witness :
    countNodes tracedWorld 3 = .ok (GetSize tracedWorld 3) ∧
    (IsEmpty tracedWorld 3 = true ↔ begin tracedWorld 3 = end_ tracedWorld 3) :=
  size_matches_chain tracedWorld ⟨8, tracedCalls, by decide, rfl⟩ 3

/-- C12: in a reachable state, for lists `a` and `b` (possibly the same object, possibly
both empty) with `b` holding `ys`, a local `t` that is neither of them and enough free
cells for the copy, `a = b` returns normally; then `a` holds `ys` with `GetSize()` the
length of `ys`, `b` still holds `ys` with its size, and for `a` and `b` the same object
the state is unchanged. -/
theorem assign_copies (w : World α) (hw : Reachable w) (a b t : Nat) (ys : List α)
    (hta : t ≠ a) (htb : t ≠ b) (hb : Holds w b ys)
    (hfree : ys.length ≤ w.heap.countP Option.isNone) :
    ∃ w1, assign w a b t = .ok () w1 ∧ Holds w1 a ys ∧ Holds w1 b ys ∧ (a = b → w1 = w) := by
  obtain ⟨own, h⟩ := reachable_inv hw
  have hys : (own b).map Prod.snd = ys := by
    have h1 := toList_of_repr (h.2.1 b).1
    rw [hb.1] at h1
    injection h1 with h1
    exact h1.symm
  obtain ⟨w4, own4, h4, hown_b, hres⟩ := assign_inv h a b t hta htb
  rcases hres with ⟨hok, hv, hself⟩ | ⟨-, -, hno⟩
  · refine ⟨w4, hok, ?_, ?_, hself⟩
    · have := holds_of_repr (h4.2.1 a).1 (h4.2.1 a).2
      rwa [hv, hys] at this
    · have := holds_of_repr (h4.2.1 b).1 (h4.2.1 b).2
      rwa [hown_b, hys] at this
  · exact absurd (by rw [← hys, List.length_map] at hfree; exact hfree) hno

/-- Witness of C12: assigning `[1, 2]` to the list that holds `[3]`. -/
theorem assign_copies_witness :
    ∃ w1, assign builtWorld 1 0 2 = .ok () w1 ∧ Holds w1 1 [1, 2] ∧ Holds w1 0 [1, 2] ∧
      ((1 : Nat) = 0 → w1 = builtWorld) :=
  assign_copies builtWorld ⟨8, builtCalls, by decide, rfl⟩ 1 0 2 [1, 2] (by decide) (by decide)
    ⟨by decide, by decide⟩ (by decide)

end Invariant

end SLL
